import Mathlib

/-!
Verification of the Lucene query analyzer / repairer of `apps/utils/lucene.py`.

The development shallowly embeds the Python module: strings are `List Char`
(Python `str` indexing is by code point, as is ours), fallible Python code
returns `Except PyErr`, and in-place mutation of `self.keyword` is explicit
state passing.  The third-party `luqum` parser (`parser.parse`), the constants
of `apps/constants.py` and the exception class of `apps/exceptions.py` are not
part of the sources; definitions for them are modelled from the specification
and are marked `Modelled from the spec:` in their doc comments.  Everything
else is translated directly from `apps/utils/lucene.py`.
-/

set_option maxRecDepth 10000

/-- Python exception classes that can escape the embedded code.
`parseSyntax` and `illegalCharacter` are luqum's `ParseSyntaxError` and
`IllegalCharacterError` (carrying `str(e)`); `unknownLuceneOperator` is
`apps.exceptions.UnknownLuceneOperatorException`; `typeError` and
`attributeError` are Python's built-in `TypeError` / `AttributeError`;
`recursionError` models Python's `RecursionError` (used where the embedding
bounds recursion by fuel). -/
inductive PyErr where
  | parseSyntax (msg : List Char)
  | illegalCharacter (msg : List Char)
  | unknownLuceneOperator
  | typeError
  | attributeError
  | recursionError
deriving DecidableEq, Repr

/-! ## Constants

`apps/constants.py` is imported by `apps/utils/lucene.py` but is not among the
sources; the following constants are modelled from the spec. -/

/-- Modelled from the spec: the full-text sentinel name (§3: "the reserved
full-text token (implementation-defined constant, e.g. `"*"` or `"_all"`)").
We take `*`; no claim below depends on its exact spelling, only on the fact
that it contains no parenthesis. -/
def FULL_TEXT_SEARCH_FIELD_NAME : List Char := ("*").data

/-- Modelled from the spec: the default field operator (§3: `"~="` default
word match). -/
def DEFAULT_FIELD_OPERATOR : List Char := ("~=").data

/-- Modelled from the spec: operator of a field group (§3: `"()"`). -/
def FIELD_GROUP_OPERATOR : List Char := ("()").data

/-- Modelled from the spec: operator of a `Not` node (§3). -/
def NOT_OPERATOR : List Char := ("NOT").data

/-- Modelled from the spec: operator of a `Plus` node (§3). -/
def PLUS_OPERATOR : List Char := ("+").data

/-- Modelled from the spec: operator of a `Prohibit` node (§3). -/
def PROHIBIT_OPERATOR : List Char := ("-").data

/-- Modelled from the spec: `LOW_CHAR` maps `include_low` to the opening
range bracket (§4.3: `[` means inclusive and `{` means exclusive). -/
def LOW_CHAR (includeLow : Bool) : Char := if includeLow then '[' else '{'

/-- Modelled from the spec: `HIGH_CHAR` maps `include_high` to the closing
range bracket. -/
def HIGH_CHAR (includeHigh : Bool) : Char := if includeHigh then ']' else '}'

/-- Modelled from the spec: `BRACKET_DICT` maps each opening bracket to its
closing partner (§4.5.5: opening brackets are `(`, `[`, `{`). -/
def BRACKET_DICT : Char → Option Char
  | '(' => some ')'
  | '[' => some ']'
  | '{' => some '}'
  | _ => none

/-- Modelled from the spec: `MAX_RESOLVE_TIMES` (§4.5: "a small constant,
typically 10"). -/
def MAX_RESOLVE_TIMES : Nat := 10

/-! ## Small string utilities (Python semantics on `List Char`) -/

/-- Decimal rendering of a natural number, embedding Python's `str(int)` /
f-string formatting of a non-negative integer. -/
def digitChar (d : Nat) : Char := Char.ofNat (48 + d)

def natDigitsGo : Nat → Nat → List Char
  | 0, _ => []
  | fuel + 1, n =>
    if n < 10 then [digitChar n]
    else natDigitsGo fuel (n / 10) ++ [digitChar (n % 10)]

def natDigits (n : Nat) : List Char := natDigitsGo (n + 1) n

theorem natDigitsGo_fuel {n : Nat} : ∀ (f₁ f₂ : Nat), n < f₁ → n < f₂ →
    natDigitsGo f₁ n = natDigitsGo f₂ n := by
  induction n using Nat.strong_induction_on with
  | _ n ih =>
    intro f₁ f₂ h₁ h₂
    match f₁, f₂ with
    | k₁ + 1, k₂ + 1 =>
      simp only [natDigitsGo]
      split
      · rfl
      · have hd : n / 10 < n := Nat.div_lt_self (by omega) (by omega)
        rw [ih (n / 10) hd k₁ k₂ (by omega) (by omega)]

/-- The defining recurrence of `natDigits`. -/
theorem natDigits_eq (n : Nat) : natDigits n =
    if n < 10 then [digitChar n] else natDigits (n / 10) ++ [digitChar (n % 10)] := by
  show natDigitsGo (n + 1) n = _
  simp only [natDigitsGo]
  split
  · rfl
  · have hd : n / 10 < n := Nat.div_lt_self (by omega) (by omega)
    rw [natDigitsGo_fuel n (n / 10 + 1) (by omega) (by omega)]
    rfl

theorem digitChar_inj {d₁ d₂ : Nat} (h₁ : d₁ < 10) (h₂ : d₂ < 10)
    (h : digitChar d₁ = digitChar d₂) : d₁ = d₂ := by
  interval_cases d₁ <;> interval_cases d₂ <;> first | rfl | exact absurd h (by decide)

theorem natDigits_ne_nil (n : Nat) : natDigits n ≠ [] := by
  rw [natDigits_eq]
  split <;> simp

theorem natDigits_inj : ∀ {m n : Nat}, natDigits m = natDigits n → m = n := by
  intro m
  induction m using Nat.strong_induction_on with
  | _ m ih =>
    intro n h
    rw [natDigits_eq] at h
    rw [natDigits_eq n] at h
    split at h <;> split at h
    · simpa using digitChar_inj (by assumption) (by assumption) (by simpa using h)
    · exfalso
      rcases List.exists_cons_of_ne_nil (natDigits_ne_nil (n / 10)) with ⟨a, as, ha⟩
      rw [ha] at h
      have := congrArg List.length h
      simp at this
    · exfalso
      rcases List.exists_cons_of_ne_nil (natDigits_ne_nil (m / 10)) with ⟨a, as, ha⟩
      rw [ha] at h
      have := congrArg List.length h
      simp at this
    · have hlen : ([digitChar (m % 10)] : List Char).length = [digitChar (n % 10)].length := rfl
      have h2 := List.append_inj h (by
        have := congrArg List.length h
        simpa using this)
      have hdiv : m / 10 = n / 10 := ih (m / 10) (Nat.div_lt_self (by omega) (by omega)) h2.1
      have hmod : m % 10 = n % 10 := by
        have := h2.2
        simp at this
        exact digitChar_inj (Nat.mod_lt _ (by omega)) (Nat.mod_lt _ (by omega)) this
      omega

theorem digitChar_ne_lparen {d : Nat} (h : d < 10) : digitChar d ≠ '(' := by
  interval_cases d <;> decide

/-- Characters of `natDigits` are decimal digits, in particular not `(`. -/
theorem natDigits_no_lparen (n : Nat) : '(' ∉ natDigits n := by
  induction n using Nat.strong_induction_on with
  | _ n ih =>
    rw [natDigits_eq]
    split
    · simp
      exact fun hh => digitChar_ne_lparen (by assumption) hh.symm
    · simp
      constructor
      · exact ih (n / 10) (Nat.div_lt_self (by omega) (by omega))
      · exact fun hh => digitChar_ne_lparen (Nat.mod_lt _ (by omega)) hh.symm

/-! ## Tokens and AST (spec §3) -/

/-- Lexer token with its source position (code-point offset, luqum's
`lexpos`). -/
inductive Tok where
  | word (v : List Char) (pos : Nat)
  | phrase (v : List Char) (pos : Nat)
  | colon (pos : Nat)
  | lparen (pos : Nat)
  | rparen (pos : Nat)
  | lbracket (pos : Nat)
  | rbracket (pos : Nat)
deriving DecidableEq, Repr

/-- The printed value of a token, as interpolated into luqum's
`unexpected  '%s'` error message. -/
def Tok.value : Tok → List Char
  | .word v _ => v
  | .phrase v _ => v
  | .colon _ => (":").data
  | .lparen _ => ("(").data
  | .rparen _ => (")").data
  | .lbracket _ => ("[").data
  | .rbracket _ => ("]").data

def Tok.pos : Tok → Nat
  | .word _ p => p
  | .phrase _ p => p
  | .colon p => p
  | .lparen p => p
  | .rparen p => p
  | .lbracket p => p
  | .rbracket p => p

/-- AST node kinds of spec §3, each carrying its source position.  `Fuzzy`,
`Regex` and `Proximity` are omitted: the token classes `~`, `^` and `/…/`
are outside the subset of the grammar exercised by the claims. -/
inductive AST where
  | word (pos : Nat) (value : List Char)
  | phrase (pos : Nat) (value : List Char)
  | searchField (pos : Nat) (name : List Char) (expr : AST)
  | fieldGroup (pos : Nat) (expr : AST)
  | group (pos : Nat) (children : List AST)
  | range (pos : Nat) (low high : List Char) (includeLow includeHigh : Bool)
  | andOperation (pos : Nat) (operands : List AST)
  | orOperation (pos : Nat) (operands : List AST)
  | unknownOperation (pos : Nat) (operands : List AST)
  | notOp (pos : Nat) (a : AST)
  | plusOp (pos : Nat) (a : AST)
  | prohibit (pos : Nat) (a : AST)

def AST.pos : AST → Nat
  | .word p _ => p
  | .phrase p _ => p
  | .searchField p _ _ => p
  | .fieldGroup p _ => p
  | .group p _ => p
  | .range p _ _ _ _ => p
  | .andOperation p _ => p
  | .orOperation p _ => p
  | .unknownOperation p _ => p
  | .notOp p _ => p
  | .plusOp p _ => p
  | .prohibit p _ => p

/-! ## Error messages

Literal texts of luqum's diagnostics, as matched verbatim by the inspectors
of `apps/utils/lucene.py` (the unmatched-parenthesis text is the module's
`unexpect_unmatched_re`). -/

/-- luqum's end-of-input parse error message; `IllegalColonInspector` and
`IllegalBracketInspector` compare `str(e)` against exactly this text. -/
def endOfExprMsg : List Char :=
  ("Syntax error in input : unexpected end of expression (maybe due to unmatched parenthesis) at the end!").data

/-- luqum's unexpected-token parse error message
(`Syntax error in input : unexpected  '%s' at position %d!`). -/
def unexpectedTokMsg (v : List Char) (pos : Nat) : List Char :=
  ("Syntax error in input : unexpected  '").data ++ v
    ++ ("' at position ").data ++ natDigits pos ++ ("!").data

/-- luqum's lexer error message (`Illegal character '%s' at position %d`). -/
def illegalCharMsg (c : Char) (pos : Nat) : List Char :=
  ("Illegal character '").data ++ [c] ++ ("' at position ").data ++ natDigits pos

/-! ## Lexer (spec §4.1), modelled from the spec -/

def isSpaceChar (c : Char) : Bool :=
  c = ' ' ∨ c = '\t' ∨ c = '\n' ∨ c = '\r'

/-- Characters that terminate a word: token delimiters, quotes and
whitespace.  The Chinese curly quotes `“` `”` and the braces are outside the
modelled alphabet and lex as illegal characters. -/
def isWordChar (c : Char) : Bool :=
  ¬ (c = '(' ∨ c = ')' ∨ c = '[' ∨ c = ']' ∨ c = '{' ∨ c = '}' ∨ c = ':'
      ∨ c = '"' ∨ c = '“' ∨ c = '”' ∨ isSpaceChar c)

/-- Modelled from the spec: luqum's lexer (spec §4.1).  Emits tokens with
their code-point offsets; whitespace separates tokens; characters outside
the modelled alphabet raise `IllegalCharacterError`.  Recursion is bounded
by fuel (exhaustion maps to `recursionError`; the entry point supplies
enough fuel for any input). -/
def lexGo : Nat → List Char → Nat → Except PyErr (List Tok)
  | 0, _, _ => .error .recursionError
  | _ + 1, [], _ => .ok []
  | fuel + 1, c :: rest, pos =>
    if isSpaceChar c then lexGo fuel rest (pos + 1)
    else if c = '(' then do pure (.lparen pos :: (← lexGo fuel rest (pos + 1)))
    else if c = ')' then do pure (.rparen pos :: (← lexGo fuel rest (pos + 1)))
    else if c = '[' then do pure (.lbracket pos :: (← lexGo fuel rest (pos + 1)))
    else if c = ']' then do pure (.rbracket pos :: (← lexGo fuel rest (pos + 1)))
    else if c = ':' then do pure (.colon pos :: (← lexGo fuel rest (pos + 1)))
    else if c = '"' then
      let inner := rest.takeWhile (fun d => ¬ d = '"')
      if inner.length < rest.length then do
        pure (.phrase ('"' :: inner ++ [('"' : Char)]) pos
          :: (← lexGo fuel (rest.drop (inner.length + 1)) (pos + inner.length + 2)))
      else .error (.illegalCharacter (illegalCharMsg c pos))
    else if isWordChar c then
      let w := rest.takeWhile isWordChar
      do pure (.word (c :: w) pos :: (← lexGo fuel (rest.drop w.length) (pos + 1 + w.length)))
    else .error (.illegalCharacter (illegalCharMsg c pos))

def lex (s : List Char) : Except PyErr (List Tok) :=
  lexGo (s.length + 1) s 0

/-! ## Parser (spec §4.2), modelled from the spec -/

def kwAND : List Char := ("AND").data
def kwOR : List Char := ("OR").data
def kwNOT : List Char := ("NOT").data
def kwTO : List Char := ("TO").data

/-- Does this token start an expression?  `AND` and `OR` do not (they are
binary connectives); every other word — including `NOT` and a bare `TO`
outside a range — does, as do phrases, groups and ranges. -/
def startsExpr : Tok → Bool
  | .word v _ => ¬ (v = kwAND ∨ v = kwOR)
  | .phrase _ _ => true
  | .lparen _ => true
  | .lbracket _ => true
  | _ => false

def unexpectedTokErr (t : Tok) : PyErr :=
  .parseSyntax (unexpectedTokMsg t.value t.pos)

/-- Modelled from the spec: range atom `[ low TO high ]` (§3, §4.1: `TO` is
a keyword only inside a range context, so a `TO` in endpoint position is the
unexpected token of the `ParseSyntaxError`).  `bpos` is the position of the
opening bracket. -/
def parseRange (bpos : Nat) : List Tok → Except PyErr (AST × List Tok)
  | .word v p :: rest =>
    if v = kwTO then .error (.parseSyntax (unexpectedTokMsg kwTO p))
    else
      match rest with
      | .word v₂ p₂ :: rest₂ =>
        if v₂ = kwTO then
          match rest₂ with
          | .word v₃ p₃ :: rest₃ =>
            if v₃ = kwTO then .error (.parseSyntax (unexpectedTokMsg kwTO p₃))
            else
              match rest₃ with
              | .rbracket _ :: rest₄ => .ok (.range bpos v v₃ true true, rest₄)
              | t :: _ => .error (unexpectedTokErr t)
              | [] => .error (.parseSyntax endOfExprMsg)
          | t :: _ => .error (unexpectedTokErr t)
          | [] => .error (.parseSyntax endOfExprMsg)
        else .error (.parseSyntax (unexpectedTokMsg v₂ p₂))
      | t :: _ => .error (unexpectedTokErr t)
      | [] => .error (.parseSyntax endOfExprMsg)
  | t :: _ => .error (unexpectedTokErr t)
  | [] => .error (.parseSyntax endOfExprMsg)

/-! Modelled from the spec: luqum's grammar (§4.2), precedence from weakest
to strongest `OR` < `AND` < implicit < unary `NOT` < field < atom.  Two
adjacent atoms with no explicit operator form an `UnknownOperation` node
rather than a parse error.  An unexpected end of input raises the
unmatched-parenthesis-shaped `ParseSyntaxError` whose literal text the
repair pipeline matches.  Recursion is bounded by fuel (exhaustion maps to
`recursionError`; the entry point supplies enough fuel for any input). -/
mutual

def parseOrL : Nat → List Tok → Except PyErr (AST × List Tok)
  | 0, _ => .error .recursionError
  | n + 1, toks => do
    let (a, rest) ← parseAndL n toks
    let (ops, rest') ← parseOrTail n [a] rest
    match ops with
    | [x] => pure (x, rest')
    | _ => pure (.orOperation a.pos ops, rest')

def parseOrTail : Nat → List AST → List Tok → Except PyErr (List AST × List Tok)
  | 0, _, _ => .error .recursionError
  | n + 1, acc, toks =>
    match toks with
    | .word v _ :: rest =>
      if v = kwOR then do
        let (b, rest') ← parseAndL n rest
        parseOrTail n (acc ++ [b]) rest'
      else .ok (acc, toks)
    | _ => .ok (acc, toks)

def parseAndL : Nat → List Tok → Except PyErr (AST × List Tok)
  | 0, _ => .error .recursionError
  | n + 1, toks => do
    let (a, rest) ← parseImplicitL n toks
    let (ops, rest') ← parseAndTail n [a] rest
    match ops with
    | [x] => pure (x, rest')
    | _ => pure (.andOperation a.pos ops, rest')

def parseAndTail : Nat → List AST → List Tok → Except PyErr (List AST × List Tok)
  | 0, _, _ => .error .recursionError
  | n + 1, acc, toks =>
    match toks with
    | .word v _ :: rest =>
      if v = kwAND then do
        let (b, rest') ← parseImplicitL n rest
        parseAndTail n (acc ++ [b]) rest'
      else .ok (acc, toks)
    | _ => .ok (acc, toks)

def parseImplicitL : Nat → List Tok → Except PyErr (AST × List Tok)
  | 0, _ => .error .recursionError
  | n + 1, toks => do
    let (a, rest) ← parseUnary n toks
    let (ops, rest') ← parseImplicitTail n [a] rest
    match ops with
    | [x] => pure (x, rest')
    | _ => pure (.unknownOperation a.pos ops, rest')

def parseImplicitTail : Nat → List AST → List Tok → Except PyErr (List AST × List Tok)
  | 0, _, _ => .error .recursionError
  | n + 1, acc, toks =>
    match toks with
    | t :: _ =>
      if startsExpr t then do
        let (b, rest') ← parseUnary n toks
        parseImplicitTail n (acc ++ [b]) rest'
      else .ok (acc, toks)
    | [] => .ok (acc, toks)

def parseUnary : Nat → List Tok → Except PyErr (AST × List Tok)
  | 0, _ => .error .recursionError
  | n + 1, toks =>
    match toks with
    | .word v p :: rest =>
      if v = kwNOT then do
        let (a, rest') ← parseUnary n rest
        pure (.notOp p a, rest')
      else parseField n toks
    | _ => parseField n toks

def parseField : Nat → List Tok → Except PyErr (AST × List Tok)
  | 0, _ => .error .recursionError
  | n + 1, toks =>
    match toks with
    | .word v p :: .colon _ :: rest => do
      let (e, rest') ← parseFieldRhs n rest
      pure (.searchField p v e, rest')
    | _ => parseAtom n toks

def parseFieldRhs : Nat → List Tok → Except PyErr (AST × List Tok)
  | 0, _ => .error .recursionError
  | n + 1, toks =>
    match toks with
    | .lparen p :: rest => do
      let (e, rest') ← parseOrL n rest
      match rest' with
      | .rparen _ :: rest'' => pure (.fieldGroup p e, rest'')
      | t :: _ => .error (unexpectedTokErr t)
      | [] => .error (.parseSyntax endOfExprMsg)
    | _ => parseField n toks

def parseAtom : Nat → List Tok → Except PyErr (AST × List Tok)
  | 0, _ => .error .recursionError
  | n + 1, toks =>
    match toks with
    | .word v p :: rest =>
      if v = kwAND ∨ v = kwOR ∨ v = kwNOT then .error (.parseSyntax (unexpectedTokMsg v p))
      else .ok (.word p v, rest)
    | .phrase v p :: rest => .ok (.phrase p v, rest)
    | .lparen p :: rest => do
      let (e, rest') ← parseOrL n rest
      match rest' with
      | .rparen _ :: rest'' => pure (.group p [e], rest'')
      | t :: _ => .error (unexpectedTokErr t)
      | [] => .error (.parseSyntax endOfExprMsg)
    | .lbracket p :: rest => parseRange p rest
    | t :: _ => .error (unexpectedTokErr t)
    | [] => .error (.parseSyntax endOfExprMsg)

end

/-- Modelled from the spec: `parser.parse(keyword, lexer=lexer)` — lex, parse
one expression, and reject trailing tokens. -/
def specParse (kw : List Char) : Except PyErr AST := do
  let toks ← lex kw
  let (ast, rest) ← parseOrL (10 * (toks.length + 1) + 10) toks
  match rest with
  | [] => .ok ast
  | t :: _ => .error (unexpectedTokErr t)

/-! ## Serialization (luqum `str(node)`), modelled from the spec -/

mutual

def astToString : AST → List Char
  | .word _ v => v
  | .phrase _ v => v
  | .searchField _ n e => n ++ (":").data ++ astToString e
  | .fieldGroup _ e => '(' :: (astToString e ++ [')'])
  | .group _ cs => '(' :: (astJoin ((" ").data) cs ++ [')'])
  | .range _ lo hi il ih => LOW_CHAR il :: (lo ++ (" TO ").data ++ hi ++ [HIGH_CHAR ih])
  | .andOperation _ ops => astJoin ((" AND ").data) ops
  | .orOperation _ ops => astJoin ((" OR ").data) ops
  | .unknownOperation _ ops => astJoin ((" ").data) ops
  | .notOp _ a => ("NOT ").data ++ astToString a
  | .plusOp _ a => '+' :: astToString a
  | .prohibit _ a => '-' :: astToString a

def astJoin (sep : List Char) : List AST → List Char
  | [] => []
  | [a] => astToString a
  | a :: b :: rest => astToString a ++ sep ++ astJoin sep (b :: rest)

end

/-! ## Generic string helpers -/

/-- Is `p` a prefix of `s`? -/
def listPfx : List Char → List Char → Bool
  | [], _ => true
  | _ :: _, [] => false
  | p :: ps, c :: cs => p = c ∧ listPfx ps cs

/-- First index at which `pat` occurs in `s` (substring search). -/
def findSub (pat : List Char) : List Char → Option Nat
  | [] => if listPfx pat [] then some 0 else none
  | c :: rest => if listPfx pat (c :: rest) then some 0 else (findSub pat rest).map (· + 1)

/-- The part of `s` after the last occurrence of (nonempty) `pat`, embedding
Python's `s.split(pat)[-1]` (left-to-right non-overlapping splits).  Fuel
bounds recursion; the entry point supplies `s.length + 1`. -/
def afterLastSubGo (pat : List Char) : Nat → List Char → List Char
  | 0, s => s
  | fuel + 1, s =>
    match findSub pat s with
    | none => s
    | some i => afterLastSubGo pat fuel (s.drop (i + pat.length))

def pySplitLast (s pat : List Char) : List Char := afterLastSubGo pat (s.length + 1) s

/-! ## Field extraction (`LuceneParser` of `apps/utils/lucene.py`) -/

/-- Lucene解析出的Field类 — the `LuceneField` dataclass.  The `type` strings
are the luqum class names (`get_node_lucene_syntax` returns
`node.__class__.__name__`, and the `LuceneSyntaxEnum` constants of
`apps/constants.py` — modelled from the spec — are those same names). -/
structure LuceneField where
  pos : Nat := 0
  name : List Char := []
  type : List Char := []
  operator : List Char := DEFAULT_FIELD_OPERATOR
  value : List Char := []
deriving DecidableEq, Repr

/-- Result of one `_get_method` dispatch: the Python handlers return either
a single `LuceneField` or a `list` of them, and callers branch on
`isinstance(fields, list)`. -/
inductive FieldsRes where
  | single (f : LuceneField)
  | many (fs : List LuceneField)
deriving DecidableEq, Repr

/-- 获取该节点lucene语法类型 (`node.__class__.__name__`). -/
def get_node_lucene_syntax : AST → List Char
  | .word _ _ => ("Word").data
  | .phrase _ _ => ("Phrase").data
  | .searchField _ _ _ => ("SearchField").data
  | .fieldGroup _ _ => ("FieldGroup").data
  | .group _ _ => ("Group").data
  | .range _ _ _ _ _ => ("Range").data
  | .andOperation _ _ => ("AndOperation").data
  | .orOperation _ _ => ("OrOperation").data
  | .unknownOperation _ _ => ("UnknownOperation").data
  | .notOp _ _ => ("Not").data
  | .plusOp _ _ => ("Plus").data
  | .prohibit _ _ => ("Prohibit").data

/-- Modelled from the spec: `WORD_RANGE_OPERATORS` — `re.search` for the
comparison operators, earliest match position first, alternatives tried in
the order `>=`, `<=`, `>`, `<` (§4.3: "checked in that order to respect the
two-character forms"). -/
def wordRangeSearch : List Char → Option (List Char)
  | [] => none
  | c :: rest =>
    if listPfx ((">=").data) (c :: rest) then some ((">=").data)
    else if listPfx (("<=").data) (c :: rest) then some (("<=").data)
    else if listPfx ((">").data) (c :: rest) then some ((">").data)
    else if listPfx (("<").data) (c :: rest) then some (("<").data)
    else wordRangeSearch rest

namespace LuceneParser

/-- 解析单词 — `parsing_word`. -/
def parsing_word (p : Nat) (v : List Char) : LuceneField :=
  let field : LuceneField :=
    { pos := p, name := FULL_TEXT_SEARCH_FIELD_NAME, operator := ("~=").data,
      type := ("Word").data, value := v }
  match wordRangeSearch v with
  | some op => { field with operator := op, value := pySplitLast v op }
  | none => field

/-! The dynamic dispatch `_get_method` and the per-kind handlers, embedded
as one mutual recursion over the AST (fuel models Python's recursion limit;
the entry point supplies enough).  Handlers that read `.value` from the
result of a child whose handler returned a `list` (`parsing_not`,
`parsing_plus`, `parsing_prohibit`) and handlers that read `.type` from such
a list (`parsing_searchfield`) raise `AttributeError`, exactly as the Python
attribute access on a `list` does. -/

mutual

def get_method : Nat → AST → Except PyErr FieldsRes
  | 0, _ => .error .recursionError
  | n + 1, node =>
    match node with
    | .word p v => .ok (.single (parsing_word p v))
    | .phrase p v =>
      .ok (.single { pos := p, name := FULL_TEXT_SEARCH_FIELD_NAME, operator := ("=").data,
                     type := ("Phrase").data, value := v })
    | .searchField p name expr => do
      match ← get_method n expr with
      | .single nf =>
        .ok (.single { pos := p, name := name, type := nf.type, operator := nf.operator,
                       value := nf.value })
      | .many _ => .error .attributeError
    | .fieldGroup p expr =>
      .ok (.single { pos := p, name := [], type := ("FieldGroup").data,
                     operator := FIELD_GROUP_OPERATOR,
                     value := '(' :: (astToString expr ++ [')']) })
    | .group p cs => do .ok (.many (← get_method_list n cs))
    | .range p lo hi il ih =>
      .ok (.single { pos := p, name := [], type := ("Range").data,
                     operator := [LOW_CHAR il, HIGH_CHAR ih],
                     value := astToString (.range p lo hi il ih) })
    | .andOperation _ ops => do .ok (.many (← get_method_list n ops))
    | .orOperation _ ops => do .ok (.many (← get_method_list n ops))
    | .unknownOperation _ _ => .error .unknownLuceneOperator
    | .notOp p a => do
      match ← get_method n a with
      | .single f =>
        .ok (.single { pos := p, name := FULL_TEXT_SEARCH_FIELD_NAME, operator := NOT_OPERATOR,
                       type := ("Not").data, value := f.value })
      | .many _ => .error .attributeError
    | .plusOp p a => do
      match ← get_method n a with
      | .single f =>
        .ok (.single { pos := p, name := FULL_TEXT_SEARCH_FIELD_NAME, operator := PLUS_OPERATOR,
                       type := ("Plus").data, value := f.value })
      | .many _ => .error .attributeError
    | .prohibit p a => do
      match ← get_method n a with
      | .single f =>
        .ok (.single { pos := p, name := FULL_TEXT_SEARCH_FIELD_NAME, operator := PROHIBIT_OPERATOR,
                       type := ("Prohibit").data, value := f.value })
      | .many _ => .error .attributeError

def get_method_list : Nat → List AST → Except PyErr (List LuceneField)
  | _, [] => .ok []
  | n, a :: rest => do
    let r ← get_method n a
    let fs ← get_method_list n rest
    match r with
    | .single f => .ok (f :: fs)
    | .many gs => .ok (gs ++ fs)

end

end LuceneParser

/-- One renaming pass of `parsing`: `number = 1; for field in fields: if
field.name == name: field.name = f"{name}({number})"; number += 1`. -/
def renameGroup : List LuceneField → List Char → Nat → List LuceneField
  | [], _, _ => []
  | f :: fs, n, k =>
    if f.name = n then
      { f with name := n ++ '(' :: (natDigits k ++ [')']) } :: renameGroup fs n (k + 1)
    else f :: renameGroup fs n k

/-- Distinct elements in first-occurrence order — the iteration order of
`Counter(...).items()` (a `dict` preserves insertion order).  Fuel bounds
the recursion; the entry point supplies `length + 1`, which always
suffices. -/
def dedupFirstGo : Nat → List (List Char) → List (List Char)
  | 0, _ => []
  | _ + 1, [] => []
  | fuel + 1, x :: xs => x :: dedupFirstGo fuel (xs.filter (fun y => ¬ y = x))

def dedupFirst (l : List (List Char)) : List (List Char) := dedupFirstGo (l.length + 1) l

theorem dedupFirstGo_fuel : ∀ (len : Nat) (l : List (List Char)) (f₁ f₂ : Nat),
    l.length ≤ len → l.length < f₁ → l.length < f₂ →
    dedupFirstGo f₁ l = dedupFirstGo f₂ l := by
  intro len
  induction len with
  | zero =>
    intro l f₁ f₂ hlen h₁ h₂
    match l, f₁, f₂ with
    | [], _ + 1, _ + 1 => rfl
  | succ k ih =>
    intro l f₁ f₂ hlen h₁ h₂
    match l, f₁, f₂ with
    | [], _ + 1, _ + 1 => rfl
    | x :: xs, k₁ + 1, k₂ + 1 =>
      simp only [dedupFirstGo]
      have hsub : (xs.filter (fun y => ¬ y = x)).length ≤ xs.length :=
        List.length_filter_le _ _
      rw [ih _ k₁ k₂ (by simp at hlen; omega) (by simp at h₁; omega) (by simp at h₂; omega)]

/-- The defining recurrence of `dedupFirst`. -/
theorem dedupFirst_cons (x : List Char) (xs : List (List Char)) :
    dedupFirst (x :: xs) = x :: dedupFirst (xs.filter (fun y => ¬ y = x)) := by
  show dedupFirstGo ((x :: xs).length + 1) (x :: xs) = _
  simp only [dedupFirstGo, List.length_cons]
  have hsub : (xs.filter (fun y => ¬ y = x)).length ≤ xs.length := List.length_filter_le _ _
  rw [dedupFirstGo_fuel (xs.length + 1) _ (xs.length + 1)
    ((xs.filter (fun y => ¬ y = x)).length + 1) (by omega) (by omega) (by omega)]
  rfl

/-- The duplicate-name renaming of `LuceneParser.parsing`: count the original
names (`Counter`), then for each name with count > 1 run a renaming pass over
the (current) field list. -/
def addDupIdentifiers (fields : List LuceneField) : List LuceneField :=
  let origNames := fields.map (fun f => f.name)
  (dedupFirst origNames).foldl
    (fun fs n => if 1 < origNames.count n then renameGroup fs n 1 else fs) fields

/-! Number of nodes of an AST; used as extraction fuel (any fuel strictly
above the tree depth behaves identically, so the choice is immaterial). -/
mutual

def astSize : AST → Nat
  | .word _ _ => 1
  | .phrase _ _ => 1
  | .searchField _ _ e => astSize e + 1
  | .fieldGroup _ e => astSize e + 1
  | .group _ cs => astListSize cs + 1
  | .range _ _ _ _ _ => 1
  | .andOperation _ ops => astListSize ops + 1
  | .orOperation _ ops => astListSize ops + 1
  | .unknownOperation _ ops => astListSize ops + 1
  | .notOp _ a => astSize a + 1
  | .plusOp _ a => astSize a + 1
  | .prohibit _ a => astSize a + 1

def astListSize : List AST → Nat
  | [] => 0
  | a :: rest => astSize a + astListSize rest

end

namespace LuceneParser

/-- 解析lucene语法入口函数 — `LuceneParser.parsing`: parse the keyword, run
the extraction walker, and, when the walker returned a list, rename
duplicated field names; a non-list result is wrapped as a singleton without
renaming. -/
def parsing (keyword : List Char) : Except PyErr (List LuceneField) := do
  let tree ← specParse keyword
  match ← get_method (astSize tree + 1) tree with
  | .many fields => .ok (addDupIdentifiers fields)
  | .single f => .ok [f]

end LuceneParser

/-! ## Regex scanners

Each of the following executable scanners embeds one of the module's regular
expressions (doc comments name the pattern).  `.` in those patterns does not
match a newline; inputs evaluated below contain none, and the Chinese-quote
scanner checks it explicitly. -/

def isDigitChar (c : Char) : Bool := 48 ≤ c.toNat ∧ c.toNat ≤ 57

/-- Value of the maximal leading digit run (the greedy `(\d+)` group). -/
def digitsValGo : Nat → List Char → Nat
  | acc, [] => acc
  | acc, c :: r => if isDigitChar c then digitsValGo (acc * 10 + (c.toNat - 48)) r else acc

def unexpectWordPfx : List Char := ("Syntax error in input : unexpected  '").data

def illegalCharPfx : List Char := ("Illegal character '").data

def posSep : List Char := ("' at position ").data

/-- Countdown search for the last (greedy) split of the remainder `r` as
`group1 ++ "' at position " ++ digits…`. -/
def lastSplitIdxGo (r : List Char) : Nat → Option Nat
  | 0 => none
  | i + 1 =>
    if listPfx posSep (r.drop i)
        && (match (r.drop (i + posSep.length)).head? with
            | some c => isDigitChar c
            | none => false) then some i
    else lastSplitIdxGo r i

/-- Embeds `re.search(r"<pfx>(.*)' at position (\d+)", msg)`: the module's
`unexpect_word_re` (with `pfx = unexpectWordPfx`) and `illegal_character_re`
(with `pfx = illegalCharPfx`).  Returns `(group1, int(group2))`. -/
def matchPosMsg (pfx msg : List Char) : Option (List Char × Nat) :=
  match findSub pfx msg with
  | none => none
  | some i =>
    let r := msg.drop (i + pfx.length)
    match lastSplitIdxGo r (r.length + 1) with
    | none => none
    | some j => some (r.take j, digitsValGo 0 (r.drop (j + posSep.length)))

/-- Embeds `re.finditer(r"(“.*?”)", kw)`: non-overlapping lazy matches,
returned as (start, end-exclusive) index pairs.  Fuel bounds recursion; the
entry point supplies `length + 1`, which always suffices. -/
def chineseFinditerGo : Nat → List Char → Nat → List (Nat × Nat)
  | 0, _, _ => []
  | _ + 1, [], _ => []
  | fuel + 1, c :: rest, i =>
    if c = '“' then
      let inner := rest.takeWhile (fun d => ¬ d = '”')
      if inner.length < rest.length ∧ ¬ inner.contains '\n' then
        (i, i + inner.length + 2)
          :: chineseFinditerGo fuel (rest.drop (inner.length + 1)) (i + inner.length + 2)
      else chineseFinditerGo fuel rest (i + 1)
    else chineseFinditerGo fuel rest (i + 1)

def chineseFinditer (keyword : List Char) : List (Nat × Nat) :=
  chineseFinditerGo (keyword.length + 1) keyword 0

/-- Embeds `re.finditer(r"(\[.*?TO.*?\])", kw)`: for each `[`, the lazy match
runs to the first `TO` after it and then to the first `]` after that;
matches do not overlap.  Fuel bounds recursion; the entry point supplies
`length + 1`, which always suffices. -/
def rangeFinditerGo : Nat → List Char → Nat → List (Nat × Nat)
  | 0, _, _ => []
  | _ + 1, [], _ => []
  | fuel + 1, c :: rest, i =>
    if c = '[' then
      match findSub (("TO").data) rest with
      | some j =>
        match findSub (("]").data) (rest.drop (j + 2)) with
        | some k =>
          (i, i + 1 + j + 2 + k + 1)
            :: rangeFinditerGo fuel (rest.drop (j + 2 + k + 1)) (i + 1 + j + 2 + k + 1)
        | none => rangeFinditerGo fuel rest (i + 1)
      | none => rangeFinditerGo fuel rest (i + 1)
    else rangeFinditerGo fuel rest (i + 1)

def rangeFinditer (keyword : List Char) : List (Nat × Nat) :=
  rangeFinditerGo (keyword.length + 1) keyword 0

/-- Last index `j` (countdown) with `TO` at `j` and some `]` at `≥ j + 2` —
the backtracking target of the greedy `(.*)TO`. -/
def lastTOIdxGo (s : List Char) : Nat → Option Nat
  | 0 => none
  | i + 1 =>
    if listPfx (("TO").data) (s.drop i) ∧ (findSub (("]").data) (s.drop (i + 2))).isSome then some i
    else lastTOIdxGo s i

/-- Last index of `]` in `s` (countdown) — the greedy `(.*)\]` target. -/
def lastBrIdxGo (s : List Char) : Nat → Option Nat
  | 0 => none
  | i + 1 => if (s.drop i).head? = some ']' then some i else lastBrIdxGo s i

/-- Embeds `re.search(r"\[(.*)TO(.*)\]", s)`: leftmost `[` from which the
pattern matches, greedy groups.  Returns `(group1, group2)`. -/
def singleRangeSearch (s : List Char) : Option (List Char × List Char) :=
  match lastTOIdxGo s (s.length + 1) with
  | none => none
  | some j =>
    match List.findIdx? (fun c => c = '[') s with
    | some b =>
      if b < j then
        match lastBrIdxGo s (s.length + 1) with
        | some k => some (((s.take j).drop (b + 1), (s.take k).drop (j + 2)))
        | none => none
      else none
    | none => none

/-- Python `str.strip()`. -/
def pyStrip (s : List Char) : List Char :=
  ((s.dropWhile isSpaceChar).reverse.dropWhile isSpaceChar).reverse

/-- Python `str.find(c)`: first index or `-1`. -/
def pyFind (s : List Char) (c : Char) : Int :=
  match List.findIdx? (fun d => d = c) s with
  | some i => (i : Int)
  | none => -1

/-! ## Inspectors (`BaseInspector` subclasses of `apps/utils/lucene.py`)

Each inspector is a function from the current keyword to the pair of the new
keyword and its `InspectResult` (mutating `self.keyword` / `self.result` is
explicit state passing); a Python exception escaping `inspect` is an
`Except.error`. -/

structure InspectResult where
  is_legal : Bool := true
  message : List Char := []
deriving DecidableEq, Repr

def chinesePunctuationMsg : List Char := ("中文标点异常").data
def illegalCharacterMsg : List Char := ("异常字符").data
def illegalRangeMsg : List Char := ("非法RANGE语法").data
def illegalBracketMsg : List Char := ("括号不匹配").data
def illegalColonMsg : List Char := ("多余的冒号").data
def unknownOperatorMsg : List Char := ("未知操作符").data
def defaultInspectorMsg : List Char := ("未知异常").data

/-- `BaseInspector.replace_unexpected_character`: `self.keyword[pos] = char`.
A Python `str` does not support item assignment, so this statement raises
`TypeError` unconditionally. -/
def replace_unexpected_character (keyword : List Char) (pos : Nat) (c : Char) :
    Except PyErr (List Char) :=
  .error .typeError

/-- `BaseInspector.remove_unexpected_character`:
`keyword[:position] + keyword[position + len(match[1]):]`. -/
def remove_unexpected_character (keyword : List Char) (wlen pos : Nat) : List Char :=
  keyword.take pos ++ keyword.drop (pos + wlen)

/-- The replacement loop of `ChinesePunctuationInspector.inspect` over the
regex matches (two `replace_unexpected_character` calls per match). -/
def chineseReplaceLoop (keyword : List Char) : List (Nat × Nat) → Except PyErr (List Char)
  | [] => .ok keyword
  | (s, e) :: rest => do
    let k₁ ← replace_unexpected_character keyword s '"'
    let k₂ ← replace_unexpected_character k₁ e '"'
    chineseReplaceLoop k₂ rest

/-- `ChinesePunctuationInspector.inspect`. -/
def chinesePunctuationInspect (keyword : List Char) : Except PyErr (List Char × InspectResult) :=
  match chineseFinditer keyword with
  | [] => .ok (keyword, {})
  | ms => do
    let k ← chineseReplaceLoop keyword ms
    .ok (k, { is_legal := false, message := chinesePunctuationMsg })

/-- `IllegalCharacterInspector.inspect`. -/
def illegalCharacterInspect (keyword : List Char) : Except PyErr (List Char × InspectResult) :=
  match specParse keyword with
  | .error (.illegalCharacter msg) =>
    match matchPosMsg illegalCharPfx msg with
    | some (w, p) =>
      .ok (remove_unexpected_character keyword w.length p,
           { is_legal := false, message := illegalCharacterMsg })
    | none => .ok (keyword, {})
  | .error (.parseSyntax msg) =>
    match matchPosMsg unexpectWordPfx msg with
    | some (w, p) =>
      .ok (remove_unexpected_character keyword w.length p,
           { is_legal := false, message := illegalCharacterMsg })
    | none => .ok (keyword, {})
  | .error _ => .ok (keyword, {})
  | .ok _ => .ok (keyword, {})

/-- The splicing loop of `IllegalRangeSyntaxInspector.resolve`: text before
each match, the repaired range (skipped entirely — `continue` — when both
endpoints are nonempty after stripping), and after the last match the tail
(skipped when that iteration hit `continue`). -/
def rangeResolveGo (keyword : List Char) : Option Nat → List (Nat × Nat) → List Char
  | _, [] => []
  | prevEnd, (s, e) :: rest =>
    let before := match prevEnd with
      | none => keyword.take s
      | some pe => (keyword.take s).drop pe
    let seg := (keyword.take e).drop s
    let repaired : Option (List Char) :=
      match singleRangeSearch seg with
      | some (g₁, g₂) =>
        let st := pyStrip g₁
        let en := pyStrip g₂
        if st ≠ [] ∧ en ≠ [] then none
        else some ('[' :: ((if st = [] then ("*").data else st) ++ (" TO ").data
               ++ (if en = [] then ("*").data else en) ++ [']']))
      | none => some []
    match repaired with
    | none => before ++ rangeResolveGo keyword (some e) rest
    | some txt =>
      before ++ txt ++ (if rest = [] then keyword.drop e else [])
        ++ rangeResolveGo keyword (some e) rest

/-- `IllegalRangeSyntaxInspector.resolve`. -/
def illegalRangeResolve (keyword : List Char) (matchGroups : List (Nat × Nat)) : List Char :=
  rangeResolveGo keyword none matchGroups

/-- `IllegalRangeSyntaxInspector.inspect`. -/
def illegalRangeSyntaxInspect (keyword : List Char) : Except PyErr (List Char × InspectResult) :=
  match specParse keyword with
  | .error (.parseSyntax msg) =>
    match matchPosMsg unexpectWordPfx msg with
    | some (w, _) =>
      if w = kwTO then
        match rangeFinditer keyword with
        | [] => .ok (keyword, {})
        | ms => .ok (illegalRangeResolve keyword ms,
                     { is_legal := false, message := illegalRangeMsg })
      else .ok (keyword, {})
    | none => .ok (keyword, {})
  | _ => .ok (keyword, {})

/-- `IllegalColonInspector.inspect`: on the exact unmatched-parenthesis
message, drop the final character when `keyword.find(":")` — the index of
the FIRST colon, `-1` when absent — equals `len(keyword) - 1` (Python `int`
arithmetic, hence `Int` here: on the empty string both sides are `-1`). -/
def illegalColonInspect (keyword : List Char) : Except PyErr (List Char × InspectResult) :=
  match specParse keyword with
  | .error (.parseSyntax msg) =>
    if msg = endOfExprMsg then
      if pyFind keyword ':' = (keyword.length : Int) - 1 then
        .ok (keyword.dropLast, { is_legal := false, message := illegalColonMsg })
      else .ok (keyword, {})
    else .ok (keyword, {})
  | _ => .ok (keyword, {})

/-- The push-then-test step of `IllegalBracketInspector.inspect` for a
closing bracket that did not match the stack top: push it, and if the new
top closes against the stack bottom remove the second-from-top entry's
index, otherwise the new top's own index.  (When the stack was empty the
bottom is the just-pushed closing bracket, whose `BRACKET_DICT` lookup is
`none`, so the second-from-top access is unreachable.) -/
def bracketPushCheck (c : Char) (idx : Nat) (s : List (Char × Nat)) : Option Nat :=
  let s₂ : List (Char × Nat) := (c, idx) :: s
  match s₂.getLast? with
  | some (bsym, _) =>
    if BRACKET_DICT bsym = some c then
      match s with
      | prev :: _ => some prev.2
      | [] => some idx
    else some idx
  | none => some idx

/-- The scan loop of `IllegalBracketInspector.inspect`: returns the index of
the single character to remove, or `none` when the scan ends with an empty
stack (no repair).  The stack grows at its head; the Python `deque`'s
`s[-1]` is the head and `s[0]` is `getLast`. -/
def bracketScanGo : List Char → Nat → List (Char × Nat) → Option Nat
  | [], _, s =>
    match s with
    | [] => none
    | (_, i) :: _ => some i
  | c :: rest, idx, s =>
    if (BRACKET_DICT c).isSome then bracketScanGo rest (idx + 1) ((c, idx) :: s)
    else if c = ')' ∨ c = ']' ∨ c = '}' then
      match s with
      | (top, _) :: s' =>
        if BRACKET_DICT top = some c then bracketScanGo rest (idx + 1) s'
        else bracketPushCheck c idx s
      | [] => bracketPushCheck c idx s
    else bracketScanGo rest (idx + 1) s

def bracketScan (keyword : List Char) : Option Nat := bracketScanGo keyword 0 []

/-- `IllegalBracketInspector.inspect`. -/
def illegalBracketInspect (keyword : List Char) : Except PyErr (List Char × InspectResult) :=
  match specParse keyword with
  | .error (.parseSyntax msg) =>
    if msg = endOfExprMsg then
      match bracketScan keyword with
      | some i =>
        .ok (keyword.take i ++ keyword.drop (i + 1),
             { is_legal := false, message := illegalBracketMsg })
      | none => .ok (keyword, {})
    else .ok (keyword, {})
  | _ => .ok (keyword, {})

/-! Modelled from the spec: luqum's `UnknownOperationResolver()` resolves
every `UnknownOperation` node to an explicit `AndOperation` over its
operands (§4.5.6). -/
mutual

def resolveUnknownOp : AST → AST
  | .word p v => .word p v
  | .phrase p v => .phrase p v
  | .searchField p n e => .searchField p n (resolveUnknownOp e)
  | .fieldGroup p e => .fieldGroup p (resolveUnknownOp e)
  | .group p cs => .group p (resolveUnknownOpList cs)
  | .range p lo hi il ih => .range p lo hi il ih
  | .andOperation p ops => .andOperation p (resolveUnknownOpList ops)
  | .orOperation p ops => .orOperation p (resolveUnknownOpList ops)
  | .unknownOperation p ops => .andOperation p (resolveUnknownOpList ops)
  | .notOp p a => .notOp p (resolveUnknownOp a)
  | .plusOp p a => .plusOp p (resolveUnknownOp a)
  | .prohibit p a => .prohibit p (resolveUnknownOp a)

def resolveUnknownOpList : List AST → List AST
  | [] => []
  | a :: rest => resolveUnknownOp a :: resolveUnknownOpList rest

end

/-- `UnknownOperatorInspector.inspect`.  Note the guard: the except clause
fires only when `parser.parse` itself raises `UnknownLuceneOperatorException`
(the keyword is then re-parsed and resolved); any other exception is
swallowed.  An exception raised inside the except block propagates. -/
def unknownOperatorInspect (keyword : List Char) : Except PyErr (List Char × InspectResult) :=
  match specParse keyword with
  | .error .unknownLuceneOperator =>
    match specParse keyword with
    | .ok t => .ok (astToString (resolveUnknownOp t),
                    { is_legal := false, message := unknownOperatorMsg })
    | .error e => .error e
  | .error _ => .ok (keyword, {})
  | .ok _ => .ok (keyword, {})

/-- `DefaultInspector.inspect`: full parse and full field extraction; any
exception marks the keyword illegal with the "unknown exception" message. -/
def defaultInspect (keyword : List Char) : Except PyErr (List Char × InspectResult) :=
  match specParse keyword with
  | .ok _ =>
    match LuceneParser.parsing keyword with
    | .ok _ => .ok (keyword, {})
    | .error _ => .ok (keyword, { is_legal := false, message := defaultInspectorMsg })
  | .error _ => .ok (keyword, { is_legal := false, message := defaultInspectorMsg })

/-! ## The resolver (`LuceneSyntaxResolver` of `apps/utils/lucene.py`) -/

def REGISTERED_INSPECTORS : List (List Char → Except PyErr (List Char × InspectResult)) :=
  [chinesePunctuationInspect,
   illegalRangeSyntaxInspect,
   illegalCharacterInspect,
   illegalColonInspect,
   illegalBracketInspect,
   unknownOperatorInspect,
   defaultInspect]

/-- `LuceneSyntaxResolver.inspect` body for one iteration: thread the keyword
through the inspectors in order, collecting the messages of the inspectors
whose result is illegal. -/
def resolverInspect (keyword : List Char) : Except PyErr (List Char × List (List Char)) :=
  REGISTERED_INSPECTORS.foldlM
    (fun acc insp => do
      let (k, r) ← insp acc.1
      pure (k, if r.is_legal then acc.2 else acc.2 ++ [r.message]))
    (keyword, ([] : List (List Char)))

/-- The `for i in range(MAX_RESOLVE_TIMES)` loop of
`LuceneSyntaxResolver.resolve`: stop early (resolved) on the first clean
iteration, extending `self.messages` otherwise. -/
def resolveLoop : Nat → List Char → List (List Char) → Except PyErr (List Char × List (List Char) × Bool)
  | 0, keyword, msgs => .ok (keyword, msgs, false)
  | n + 1, keyword, msgs => do
    let (k, newMsgs) ← resolverInspect keyword
    if newMsgs = [] then .ok (k, msgs, true)
    else resolveLoop n k (msgs ++ newMsgs)

structure RepairResult where
  is_legal : Bool
  is_resolved : Bool
  message : List Char
  keyword : List Char
deriving DecidableEq, Repr

def joinNewline : List (List Char) → List Char
  | [] => []
  | [m] => m
  | m :: ms => m ++ '\n' :: joinNewline ms

namespace LuceneSyntaxResolver

/-- `LuceneSyntaxResolver.resolve`.  `set(self.messages)` is modelled as
first-occurrence deduplication (a Python `set`'s iteration order is
unspecified; theorems below either have a single diagnostic or state the
message up to that order). -/
def resolve (keyword : List Char) : Except PyErr RepairResult := do
  let (kw, msgs, isResolved) ← resolveLoop MAX_RESOLVE_TIMES keyword []
  let msgSet := dedupFirst msgs
  let msgSet := if isResolved ∧ defaultInspectorMsg ∈ msgSet then
      msgSet.erase defaultInspectorMsg else msgSet
  .ok { is_legal := msgSet.isEmpty, is_resolved := isResolved,
        message := joinNewline msgSet, keyword := kw }

end LuceneSyntaxResolver

/-! ## Claim theorems -/

/-- C1: the claim that `repair` returns a `RepairResult` for every input
without raising fails on the code: on any keyword containing a matched pair
of Chinese curly quotes the first inspector calls
`replace_unexpected_character`, whose `self.keyword[pos] = char` raises
`TypeError` on an immutable `str`, and neither `ChinesePunctuationInspector`
nor `LuceneSyntaxResolver` catches it, so `resolve` propagates the
exception to the caller. -/
theorem resolve_raises_typeerror_on_chinese_quotes :
    LuceneSyntaxResolver.resolve (("name: “bob”").data) = .error .typeError := by rfl

/-- C2: the claim that `repair("foo bar")` rewrites the `UnknownOperation`
to `foo AND bar` fails on the code: `UnknownOperatorInspector.inspect` puts
its `except UnknownLuceneOperatorException` around `parser.parse`, which
never raises that exception (only `LuceneParser.parsing` does, from
`parsing_unknownoperation`), so the inspector never fires; only the
`DefaultInspector` reports, with the "unknown exception" message, and the
keyword is returned unchanged with `is_resolved = false`. -/
theorem resolve_leaves_unknown_operation_unrepaired :
    LuceneSyntaxResolver.resolve (("foo bar").data)
      = .ok ⟨false, false, ("未知异常").data, ("foo bar").data⟩ := by rfl

/-- C3: the claim that the `ChinesePunctuationInspector` replaces the
Chinese quotes of `name: “bob”` with `"` fails on the code: the replacement
helper `replace_unexpected_character` executes `self.keyword[pos] = char`,
which raises `TypeError` (Python `str` item assignment), so `inspect`
raises instead of repairing.  (Even with a mutable buffer the write at
`m.end()` would land one past the closing quote.) -/
theorem chinese_punctuation_inspect_raises_typeerror :
    chinesePunctuationInspect (("name: “bob”").data) = .error .typeError := by rfl

/-- C5: the claim that the range inspector leaves all other text — including
well-formed ranges — in place fails on the code: the `continue` in
`IllegalRangeSyntaxInspector.resolve` skips re-appending a well-formed range
(and, when it is the last match, the tail after it), so
`ts: [ TO 100] AND a: [1 TO 2]` is rewritten to `ts: [* TO 100] AND a: `,
deleting the well-formed `[1 TO 2]`.  The claim's own single-range example
does repair as stated: `repair("ts: [ TO 100]")` yields
`ts: [* TO 100]` with the illegal-range diagnostic. -/
theorem range_inspector_drops_wellformed_ranges :
    illegalRangeSyntaxInspect (("ts: [ TO 100] AND a: [1 TO 2]").data)
      = .ok ((("ts: [* TO 100] AND a: ").data), ⟨false, ("非法RANGE语法").data⟩) ∧
    LuceneSyntaxResolver.resolve (("ts: [ TO 100]").data)
      = .ok ⟨false, true, ("非法RANGE语法").data, ("ts: [* TO 100]").data⟩ := by
  exact ⟨by rfl, by rfl⟩

/-- C8 counterexample: on the empty input `parse_fields` does not return the
empty list (luqum raises the end-of-expression `ParseSyntaxError` — the
grammar has no empty production) and `repair` does not return
`is_legal = true`. -/
theorem empty_input_claim_false :
    LuceneParser.parsing [] ≠ .ok [] ∧
    (LuceneSyntaxResolver.resolve []).map (fun r => r.is_legal) ≠ .ok true := by
  constructor
  · rw [show LuceneParser.parsing [] = .error (.parseSyntax endOfExprMsg) from rfl]
    simp
  · rw [show LuceneSyntaxResolver.resolve []
        = .ok ⟨false, false, ("多余的冒号").data ++ '\n' :: ("未知异常").data, []⟩ from rfl]
    simp [Except.map]

/-- C8 (amended): on the empty input, `parse_fields` raises the
end-of-expression `ParseSyntaxError`; `repair` returns `is_legal = false`
and `is_resolved = false` with the stray-colon and unknown-exception
diagnostics and the empty keyword (the colon inspector fires every
iteration because `"".find(":") == -1 == len("") - 1`). -/
theorem empty_input_behaviour :
    LuceneParser.parsing [] = .error (.parseSyntax endOfExprMsg) ∧
    LuceneSyntaxResolver.resolve []
      = .ok ⟨false, false, ("多余的冒号").data ++ '\n' :: ("未知异常").data, []⟩ := by
  exact ⟨by rfl, by rfl⟩

/-- C7 counterexample: `a: (b:` ends in `:` and its parse fails with exactly
the unmatched-parenthesis message, yet the colon inspector leaves it
untouched and reports legal — `keyword.find(":")` is the index of the FIRST
colon (1), not the last (5). -/
theorem colon_inspector_claim_false :
    specParse (("a: (b:").data) = .error (.parseSyntax endOfExprMsg) ∧
    (("a: (b:").data).getLast? = some ':' ∧
    illegalColonInspect (("a: (b:").data) = .ok ((("a: (b:").data), ⟨true, []⟩) := by
  exact ⟨by rfl, by rfl, by rfl⟩

/-- C7 (amended): for every keyword whose parse fails with the exact
unmatched-parenthesis message and whose FIRST `:` is its final character,
the colon inspector drops the trailing `:` and reports the stray-colon
diagnostic; in particular `repair("foo:")` returns keyword `foo`. -/
theorem colon_inspector_drops_trailing_colon (kw : List Char)
    (h₁ : specParse kw = .error (.parseSyntax endOfExprMsg))
    (h₂ : pyFind kw ':' = (kw.length : Int) - 1) :
    illegalColonInspect kw = .ok (kw.dropLast, ⟨false, illegalColonMsg⟩) ∧
    LuceneSyntaxResolver.resolve (("foo:").data)
      = .ok ⟨false, true, ("多余的冒号").data, ("foo").data⟩ := by
  constructor
  · unfold illegalColonInspect
    rw [h₁]
    simp [h₂]
  · rfl

/-- C7 witness: the amended theorem applied at `foo:`. -/
theorem colon_inspector_drops_trailing_colon_witness :
    illegalColonInspect (("foo:").data)
      = .ok (((("foo:").data)).dropLast, ⟨false, illegalColonMsg⟩) ∧
    LuceneSyntaxResolver.resolve (("foo:").data)
      = .ok ⟨false, true, ("多余的冒号").data, ("foo").data⟩ :=
  colon_inspector_drops_trailing_colon (("foo:").data) (by rfl) (by decide)

/-- C10: whenever the group handler returns its list of fields, applying a
unary `NOT`, `+` or `-` handler on top reads `.value` from that list and
raises `AttributeError`; concretely, `NOT (a AND b)` is accepted by the
parser but `parse_fields` raises `AttributeError`. -/
theorem unary_on_group_raises_attributeerror (n p q : Nat) (cs : List AST)
    (fs : List LuceneField)
    (h : LuceneParser.get_method n (.group q cs) = .ok (.many fs)) :
    LuceneParser.get_method (n + 1) (.notOp p (.group q cs)) = .error .attributeError ∧
    LuceneParser.get_method (n + 1) (.plusOp p (.group q cs)) = .error .attributeError ∧
    LuceneParser.get_method (n + 1) (.prohibit p (.group q cs)) = .error .attributeError ∧
    (specParse (("NOT (a AND b)").data)).isOk = true ∧
    LuceneParser.parsing (("NOT (a AND b)").data) = .error .attributeError := by
  refine ⟨?_, ?_, ?_, by rfl, by rfl⟩ <;>
    · simp only [LuceneParser.get_method, h]
      rfl

/-- C10 witness: the theorem applied to the empty group. -/
theorem unary_on_group_raises_attributeerror_witness :
    LuceneParser.get_method 2 (.notOp 0 (.group 0 [])) = .error .attributeError ∧
    LuceneParser.get_method 2 (.plusOp 0 (.group 0 [])) = .error .attributeError ∧
    LuceneParser.get_method 2 (.prohibit 0 (.group 0 [])) = .error .attributeError ∧
    (specParse (("NOT (a AND b)").data)).isOk = true ∧
    LuceneParser.parsing (("NOT (a AND b)").data) = .error .attributeError :=
  unary_on_group_raises_attributeerror 1 0 0 [] [] (by rfl)

def isBracketChar (c : Char) : Bool :=
  (BRACKET_DICT c).isSome ∨ c = ')' ∨ c = ']' ∨ c = '}'

theorem drop_cons_head {kw rest' : List Char} {idx : Nat} {c : Char}
    (hdrop : kw.drop idx = c :: rest') : kw[idx]? = some c := by
  have h0 : (kw.drop idx)[0]? = some c := by rw [hdrop]; simp
  rw [List.getElem?_drop] at h0
  simpa using h0

theorem drop_cons_tail {kw rest' : List Char} {idx : Nat} {c : Char}
    (hdrop : kw.drop idx = c :: rest') : kw.drop (idx + 1) = rest' := by
  have h := List.drop_drop 1 idx kw
  rw [hdrop] at h
  simpa using h.symm

/-- Soundness of the bracket-repair scan: when it selects an index, that
index holds a bracket character of the scanned keyword. -/
theorem bracketScanGo_sound (kw : List Char) :
    ∀ (rest : List Char) (idx : Nat) (s : List (Char × Nat)),
      kw.drop idx = rest →
      (∀ p ∈ s, kw[p.2]? = some p.1 ∧ isBracketChar p.1 = true) →
      ∀ i, bracketScanGo rest idx s = some i →
        ∃ c, kw[i]? = some c ∧ isBracketChar c = true := by
  intro rest
  induction rest with
  | nil =>
    intro idx s hdrop hinv i hscan
    match s, hscan with
    | (c₀, i₀) :: s', hscan =>
      simp only [bracketScanGo] at hscan
      injection hscan with hi
      subst hi
      exact ⟨c₀, (hinv (c₀, i₀) (by simp)).1, (hinv (c₀, i₀) (by simp)).2⟩
  | cons c rest' ih =>
    intro idx s hdrop hinv i hscan
    have hc : kw[idx]? = some c := drop_cons_head hdrop
    have hdrop' : kw.drop (idx + 1) = rest' := drop_cons_tail hdrop
    simp only [bracketScanGo] at hscan
    split at hscan
    · -- opening bracket pushed
      rename_i h₁
      refine ih (idx + 1) ((c, idx) :: s) hdrop' ?_ i hscan
      intro p hp
      rcases List.mem_cons.mp hp with hp | hp
      · subst hp
        exact ⟨hc, by simp [isBracketChar, h₁]⟩
      · exact hinv p hp
    · split at hscan
      · -- closing bracket
        rename_i h₁ h₂
        have hbrc : isBracketChar c = true := by
          simp only [isBracketChar]
          simp only [Bool.decide_or]
          simp [h₂]
        split at hscan
        · -- stack had a top
          rename_i tc ti s'
          split at hscan
          · -- matched: pop and continue
            refine ih (idx + 1) _ hdrop' ?_ i hscan
            intro p hp
            exact hinv p (by simp [hp])
          · -- mismatch: push and stop
            simp only [bracketPushCheck] at hscan
            rcases hql : (((c, idx)) :: (tc, ti) :: s').getLast? with _ | q
            · simp at hql
            · obtain ⟨qc, qi⟩ := q
              rw [hql] at hscan
              split at hscan
              · -- the getLast? match takes its `some` arm
                split at hscan
                · injection hscan with hi
                  subst hi
                  exact ⟨tc, (hinv (tc, ti) (by simp)).1, (hinv (tc, ti) (by simp)).2⟩
                · injection hscan with hi
                  subst hi
                  exact ⟨c, hc, hbrc⟩
              · rename_i heq
                simp at heq
        · -- empty stack: push and stop
          have hnone : BRACKET_DICT c = none := Option.not_isSome_iff_eq_none.mp h₁
          simp only [bracketPushCheck, List.getLast?_singleton, hnone] at hscan
          simp at hscan
          subst hscan
          exact ⟨c, hc, hbrc⟩
      · -- not a bracket at all
        exact ih (idx + 1) s hdrop' hinv i hscan

/-- C6: on the exact unmatched-parenthesis parse error, one invocation of
the bracket inspector that reports illegal removes exactly one bracket
character — the one chosen by the stack scan (`bracketScanGo`, translated
from the source: opening brackets push; a closing bracket pops on a match
with the stack top and pushes otherwise; if the new top closes against the
stack bottom the second-from-top entry's index is removed, otherwise the
new top's; a non-empty final stack removes the index at its top).
Concretely, `((a AND b)` loses one `(` and the remainder parses. -/
theorem bracket_inspector_removes_one_bracket (kw kw' : List Char) (r : InspectResult)
    (h : illegalBracketInspect kw = .ok (kw', r)) (hil : r.is_legal = false) :
    (∃ i c, kw[i]? = some c ∧ isBracketChar c = true ∧
       kw' = kw.take i ++ kw.drop (i + 1) ∧ kw'.length + 1 = kw.length) ∧
    illegalBracketInspect (("((a AND b)").data)
      = .ok ((("(a AND b)").data), ⟨false, illegalBracketMsg⟩) ∧
    (specParse (("(a AND b)").data)).isOk = true := by
  refine ⟨?_, by rfl, by rfl⟩
  unfold illegalBracketInspect at h
  split at h
  · split at h
    · split at h
      · -- the scan selected an index i₀
        rename_i hscan
        injection h with h'
        injection h' with hkw hr
        obtain ⟨c, hget, hbr⟩ := bracketScanGo_sound kw kw 0 [] (by simp) (by simp) _ hscan
        rename_i i₀ -- the selected index
        have hlt : i₀ < kw.length := by
          have := List.getElem?_eq_some.mp hget
          exact this.1
        refine ⟨i₀, c, hget, hbr, hkw.symm, ?_⟩
        rw [← hkw]
        simp [List.length_take, List.length_drop]
        omega
      · -- scan found nothing: result is legal, contradicting `hil`
        injection h with h'
        injection h' with hkw hr
        rw [← hr] at hil
        exact absurd hil (by decide)
    · injection h with h'
      injection h' with hkw hr
      rw [← hr] at hil
      exact absurd hil (by decide)
  · injection h with h'
    injection h' with hkw hr
    rw [← hr] at hil
    exact absurd hil (by decide)

/-- C6 witness: the theorem applied at `((a AND b)`. -/
theorem bracket_inspector_removes_one_bracket_witness :
    (∃ i c, (("((a AND b)").data)[i]? = some c ∧ isBracketChar c = true ∧
       ("(a AND b)").data = (("((a AND b)").data).take i ++ (("((a AND b)").data).drop (i + 1) ∧
       (("(a AND b)").data).length + 1 = (("((a AND b)").data).length) ∧
    illegalBracketInspect (("((a AND b)").data)
      = .ok ((("(a AND b)").data), ⟨false, illegalBracketMsg⟩) ∧
    (specParse (("(a AND b)").data)).isOk = true :=
  bracket_inspector_removes_one_bracket (("((a AND b)").data) (("(a AND b)").data)
    ⟨false, illegalBracketMsg⟩ (by rfl) (by rfl)

/-- C9: every inspector that returns with `is_legal` still true leaves the
keyword exactly as it was constructed with — a keyword mutation happens only
in an inspector step that also records a diagnostic. -/
theorem inspectors_keep_keyword_when_legal (kw kw' : List Char) (r : InspectResult) :
    (chinesePunctuationInspect kw = .ok (kw', r) → r.is_legal = true → kw' = kw) ∧
    (illegalRangeSyntaxInspect kw = .ok (kw', r) → r.is_legal = true → kw' = kw) ∧
    (illegalCharacterInspect kw = .ok (kw', r) → r.is_legal = true → kw' = kw) ∧
    (illegalColonInspect kw = .ok (kw', r) → r.is_legal = true → kw' = kw) ∧
    (illegalBracketInspect kw = .ok (kw', r) → r.is_legal = true → kw' = kw) ∧
    (unknownOperatorInspect kw = .ok (kw', r) → r.is_legal = true → kw' = kw) ∧
    (defaultInspect kw = .ok (kw', r) → r.is_legal = true → kw' = kw) := by
  refine ⟨?_, ?_, ?_, ?_, ?_, ?_, ?_⟩
  · intro h hl
    unfold chinesePunctuationInspect at h
    split at h
    · injection h with h'
      injection h' with hkw hr
      exact hkw.symm
    · rename_i ms hne
      rcases hms : chineseFinditer kw with _ | ⟨p, rest⟩
      · exact absurd hms hne
      · rw [hms] at h
        rw [show chineseReplaceLoop kw (p :: rest) = .error .typeError from rfl] at h
        exact Except.noConfusion h
  · intro h hl
    unfold illegalRangeSyntaxInspect at h
    repeat' split at h
    all_goals
      first
      | · injection h with h'
          injection h' with hkw hr
          subst hr
          first
          | exact hkw.symm
          | exact absurd hl (by simp)
  · intro h hl
    unfold illegalCharacterInspect at h
    repeat' split at h
    all_goals
      first
      | · injection h with h'
          injection h' with hkw hr
          subst hr
          first
          | exact hkw.symm
          | exact absurd hl (by simp)
  · intro h hl
    unfold illegalColonInspect at h
    repeat' split at h
    all_goals
      first
      | · injection h with h'
          injection h' with hkw hr
          subst hr
          first
          | exact hkw.symm
          | exact absurd hl (by simp)
  · intro h hl
    unfold illegalBracketInspect at h
    repeat' split at h
    all_goals
      first
      | · injection h with h'
          injection h' with hkw hr
          subst hr
          first
          | exact hkw.symm
          | exact absurd hl (by simp)
  · intro h hl
    unfold unknownOperatorInspect at h
    split at h
    · split at h
      · injection h with h'
        injection h' with hkw hr
        subst hr
        exact absurd hl (by simp)
      · simp at h
    · injection h with h'
      injection h' with hkw hr
      exact hkw.symm
    · injection h with h'
      injection h' with hkw hr
      exact hkw.symm
  · intro h hl
    unfold defaultInspect at h
    repeat' split at h
    all_goals
      first
      | · injection h with h'
          injection h' with hkw hr
          subst hr
          first
          | exact hkw.symm
          | exact absurd hl (by simp)

/-- C9 witness: the theorem applied at the keyword `x`, on which every
inspector is legal and keyword-preserving. -/
theorem inspectors_keep_keyword_when_legal_witness :
    ("x").data = ("x").data ∧ chinesePunctuationInspect (("x").data) = .ok ((("x").data), ⟨true, []⟩) :=
  ⟨(inspectors_keep_keyword_when_legal (("x").data) (("x").data) ⟨true, []⟩).1 (by rfl) (by rfl),
   by rfl⟩

/-! ## Duplicate-renaming characterization (towards C4) -/

/-- The renamed form `f"{name}({number})"` of a field. -/
def rnAt (f : LuceneField) (k : Nat) : LuceneField :=
  { f with name := f.name ++ '(' :: (natDigits k ++ [')']) }

theorem renameGroup_length (n : List Char) :
    ∀ (fs : List LuceneField) (k : Nat), (renameGroup fs n k).length = fs.length := by
  intro fs
  induction fs with
  | nil => intro k; rfl
  | cons f fs' ih =>
    intro k
    simp only [renameGroup]
    split <;> simp [ih]

/-- Count of fields named `n` among the first `i` entries. -/
def matchesBefore (fs : List LuceneField) (n : List Char) (i : Nat) : Nat :=
  ((fs.take i).map (fun f => f.name)).count n

theorem matchesBefore_zero (fs : List LuceneField) (n : List Char) :
    matchesBefore fs n 0 = 0 := rfl

theorem matchesBefore_cons_succ (f : LuceneField) (fs : List LuceneField) (n : List Char)
    (j : Nat) :
    matchesBefore (f :: fs) n (j + 1)
      = (if f.name = n then 1 else 0) + matchesBefore fs n j := by
  simp only [matchesBefore, List.take_succ_cons, List.map_cons, List.count_cons, beq_iff_eq]
  split <;> rename_i hf
  · simp [hf, Nat.add_comm]
  · simp [hf]

/-- Positional description of one renaming pass: entry `i` is renamed with
number `k` plus the number of matches strictly before `i`, exactly when its
name is `n`. -/
theorem renameGroup_getElem? (n : List Char) :
    ∀ (fs : List LuceneField) (k i : Nat),
      (renameGroup fs n k)[i]?
        = (fs[i]?).map (fun f =>
            if f.name = n then rnAt f (k + matchesBefore fs n i) else f) := by
  intro fs
  induction fs with
  | nil => intro k i; simp [renameGroup]
  | cons f fs' ih =>
    intro k i
    simp only [renameGroup]
    split <;> rename_i hf
    · cases i with
      | zero => simp [matchesBefore_zero, hf, rnAt]
      | succ j =>
        simp only [List.getElem?_cons_succ, ih (k + 1) j, matchesBefore_cons_succ]
        rw [if_pos hf]
        have : k + 1 + matchesBefore fs' n j = k + (1 + matchesBefore fs' n j) := by omega
        rw [this]
    · cases i with
      | zero => simp [matchesBefore_zero, hf]
      | succ j =>
        simp only [List.getElem?_cons_succ, ih k j, matchesBefore_cons_succ]
        rw [if_neg hf]
        simp

def preNames (pre : List LuceneField) : List (List Char) := pre.map (fun f => f.name)

/-- The 1-based rank of entry `i` among the entries sharing its name. -/
def rankAt (pre : List LuceneField) (i : Nat) (f : LuceneField) : Nat :=
  ((preNames pre).take (i + 1)).count f.name

/-- The state of the field list after the renaming passes for the names in
`done` have run (positional, as an `Option` to cover out-of-range). -/
def curAt (pre : List LuceneField) (done : List (List Char)) (i : Nat) : Option LuceneField :=
  (pre[i]?).map (fun f =>
    if f.name ∈ done ∧ 1 < (preNames pre).count f.name then rnAt f (rankAt pre i f) else f)

theorem lparen_mem_rnAt (f : LuceneField) (k : Nat) : '(' ∈ (rnAt f k).name := by
  simp [rnAt]

theorem rnAt_name_ne {d : List Char} (hd : '(' ∉ d) (f : LuceneField) (k : Nat) :
    (rnAt f k).name ≠ d := by
  intro h
  exact hd (h ▸ lparen_mem_rnAt f k)

theorem count_take_succ (l : List (List Char)) (d : List Char) (i : Nat) :
    (l.take (i + 1)).count d = (l.take i).count d + (if l[i]? = some d then 1 else 0) := by
  rw [List.take_succ, List.count_append]
  congr 1
  rcases h : l[i]? with _ | x
  · simp
  · simp only [Option.toList]
    rcases Classical.em (x = d) with hx | hx
    · simp [hx]
    · rw [if_neg (fun hc : some x = some d => hx (Option.some.inj hc))]
      exact List.count_eq_zero.mpr (by
        simp only [List.mem_singleton]
        exact fun h => hx h.symm)

/-- Under the positional invariant, the scan of the current list for fields
named `d` (a paren-free unprocessed name) sees exactly the original fields
named `d`. -/
theorem matchesBefore_cur_eq (pre cur : List LuceneField) (done : List (List Char))
    (d : List Char) (hdpf : '(' ∉ d) (hdd : d ∉ done)
    (hcur : ∀ j, cur[j]? = curAt pre done j) :
    ∀ i, matchesBefore cur d i = ((preNames pre).take i).count d := by
  have hpoint : ∀ j : Nat, ((cur.map (fun f => f.name))[j]? = some d)
      ↔ ((preNames pre)[j]? = some d) := by
    intro j
    have hc := hcur j
    simp only [curAt] at hc
    simp only [preNames, List.getElem?_map, hc]
    rcases hj : pre[j]? with _ | f
    · simp
    · simp only [Option.map_some, Option.map_map]
      constructor
      · intro h
        injection h with h
        replace h : (if f.name ∈ done ∧ 1 < (preNames pre).count f.name
            then rnAt f (rankAt pre j f) else f).name = d := h
        split at h
        · exact absurd h (rnAt_name_ne hdpf f _)
        · simp [h]
      · intro h
        injection h with h
        replace h : f.name = d := h
        have hnd : f.name ∈ done → False := fun hmem => hdd (h ▸ hmem)
        show some ((if f.name ∈ done ∧ 1 < (preNames pre).count f.name
            then rnAt f (rankAt pre j f) else f).name) = some d
        rw [if_neg (fun hcond => hnd hcond.1), h]
  intro i
  induction i with
  | zero => rfl
  | succ j ihj =>
    have hmb : matchesBefore cur d (j + 1)
        = matchesBefore cur d j + (if (cur.map (fun f => f.name))[j]? = some d then 1 else 0) := by
      unfold matchesBefore
      rw [List.map_take, List.map_take, count_take_succ]
    rw [hmb, ihj, count_take_succ]
    congr 1
    rcases Classical.em (((preNames pre))[j]? = some d) with hp | hp
    · rw [if_pos ((hpoint j).mpr hp), if_pos hp]
    · rw [if_neg (fun hc => hp ((hpoint j).mp hc)), if_neg hp]

/-- Invariant of the renaming fold of `addDupIdentifiers`: running the
passes for the distinct names in `todo` (disjoint from the already processed
`done`) moves the positional state from `done` to `done ++ todo`. -/
theorem foldl_rename_spec (pre : List LuceneField) :
    ∀ (todo done : List (List Char)) (cur : List LuceneField),
      todo.Nodup →
      (∀ nm ∈ todo, '(' ∉ nm) →
      (∀ nm ∈ todo, nm ∉ done) →
      (∀ j, cur[j]? = curAt pre done j) →
      ∀ i, (todo.foldl
              (fun fs n => if 1 < (preNames pre).count n then renameGroup fs n 1 else fs)
              cur)[i]?
            = curAt pre (done ++ todo) i := by
  intro todo
  induction todo with
  | nil =>
    intro done cur hnd hpf hdis hcur i
    simpa using hcur i
  | cons d todo' ih =>
    intro done cur hnd hpf hdis hcur i
    simp only [List.foldl_cons]
    have hd_pf : '(' ∉ d := hpf d (by simp)
    have hd_done : d ∉ done := hdis d (by simp)
    have hnd' : todo'.Nodup := (List.nodup_cons.mp hnd).2
    have hd_todo' : d ∉ todo' := (List.nodup_cons.mp hnd).1
    have hstep : ∀ j, (if 1 < (preNames pre).count d then renameGroup cur d 1 else cur)[j]?
        = curAt pre (done ++ [d]) j := by
      intro j
      by_cases hcnt : 1 < (preNames pre).count d
      · rw [if_pos hcnt, renameGroup_getElem?, hcur j]
        unfold curAt
        rcases hj : pre[j]? with _ | f
        · rfl
        · simp only [Option.map_some']
          congr 1
          by_cases hc1 : f.name ∈ done ∧ 1 < (preNames pre).count f.name
          · rw [if_pos hc1, if_neg (rnAt_name_ne hd_pf f _),
              if_pos (⟨by simp [hc1.1], hc1.2⟩ :
                f.name ∈ done ++ [d] ∧ 1 < (preNames pre).count f.name)]
          · rw [if_neg hc1]
            by_cases hfd : f.name = d
            · rw [if_pos hfd,
                if_pos (⟨by simp [hfd], by rw [hfd]; exact hcnt⟩ :
                  f.name ∈ done ++ [d] ∧ 1 < (preNames pre).count f.name)]
              have hmb := matchesBefore_cur_eq pre cur done d hd_pf hd_done hcur j
              have hpn : (preNames pre)[j]? = some f.name := by
                simp [preNames, List.getElem?_map, hj]
              have hrank : rankAt pre j f = ((preNames pre).take j).count f.name + 1 := by
                unfold rankAt
                rw [count_take_succ, if_pos hpn]
              have hnum : 1 + matchesBefore cur d j = rankAt pre j f := by
                rw [hmb, hrank, hfd]
                omega
              rw [hnum]
            · rw [if_neg hfd,
                if_neg (fun hcond => hc1 ⟨by
                  rcases List.mem_append.mp hcond.1 with hm | hm
                  · exact hm
                  · exact absurd (List.mem_singleton.mp hm) hfd, hcond.2⟩)]
      · rw [if_neg hcnt, hcur j]
        unfold curAt
        rcases hj : pre[j]? with _ | f
        · rfl
        · simp only [Option.map_some']
          congr 1
          by_cases hfd : f.name = d
          · rw [if_neg (fun hc => hcnt (hfd ▸ hc.2)),
              if_neg (fun hc : f.name ∈ done ++ [d] ∧ 1 < (preNames pre).count f.name =>
                hcnt (hfd ▸ hc.2))]
          · by_cases hc1 : f.name ∈ done ∧ 1 < (preNames pre).count f.name
            · rw [if_pos hc1,
                if_pos (⟨by simp [hc1.1], hc1.2⟩ :
                  f.name ∈ done ++ [d] ∧ 1 < (preNames pre).count f.name)]
            · rw [if_neg hc1,
                if_neg (fun hcond => hc1 ⟨by
                  rcases List.mem_append.mp hcond.1 with hm | hm
                  · exact hm
                  · exact absurd (List.mem_singleton.mp hm) hfd, hcond.2⟩)]
    have hres := ih (done ++ [d])
      (if 1 < (preNames pre).count d then renameGroup cur d 1 else cur)
      hnd'
      (fun nm hm => hpf nm (by simp [hm]))
      (fun nm hm => by
        simp only [List.mem_append, List.mem_singleton]
        rintro (hmem | rfl)
        · exact hdis nm (by simp [hm]) hmem
        · exact hd_todo' hm)
      hstep i
    rw [hres, List.append_assoc]
    rfl

theorem mem_dedupFirst : ∀ (len : Nat) (l : List (List Char)), l.length ≤ len →
    ∀ a, (a ∈ dedupFirst l ↔ a ∈ l) := by
  intro len
  induction len with
  | zero =>
    intro l hlen a
    match l with
    | [] => rfl
  | succ k ih =>
    intro l hlen a
    match l with
    | [] => rfl
    | x :: xs =>
      rw [dedupFirst_cons]
      have hflen : (xs.filter (fun y => ¬ y = x)).length ≤ k := by
        have := List.length_filter_le (fun y => ¬ y = x) xs
        simp at hlen
        omega
      constructor
      · intro h
        rcases List.mem_cons.mp h with h | h
        · simp [h]
        · have := (ih _ hflen a).mp h
          rcases List.mem_filter.mp this with ⟨hmem, _⟩
          simp [hmem]
      · intro h
        rcases List.mem_cons.mp h with h | h
        · simp [h]
        · by_cases hax : a = x
          · simp [hax]
          · refine List.mem_cons.mpr (Or.inr ((ih _ hflen a).mpr ?_))
            exact List.mem_filter.mpr ⟨h, by simpa using hax⟩

theorem dedupFirst_nodup : ∀ (len : Nat) (l : List (List Char)), l.length ≤ len →
    (dedupFirst l).Nodup := by
  intro len
  induction len with
  | zero =>
    intro l hlen
    match l with
    | [] => exact List.nodup_nil
  | succ k ih =>
    intro l hlen
    match l with
    | [] => exact List.nodup_nil
    | x :: xs =>
      rw [dedupFirst_cons]
      have hflen : (xs.filter (fun y => ¬ y = x)).length ≤ k := by
        have := List.length_filter_le (fun y => ¬ y = x) xs
        simp at hlen
        omega
      refine List.nodup_cons.mpr ⟨?_, ih _ hflen⟩
      intro hmem
      have := (mem_dedupFirst k _ hflen x).mp hmem
      rcases List.mem_filter.mp this with ⟨_, hne⟩
      simp at hne

/-- Positional description of `addDupIdentifiers` on a field list whose
names contain no `(`: entry `i` keeps its name when that name is unique and
becomes `name(rank)` otherwise, where `rank` is its 1-based position among
the equal names. -/
theorem addDupIdentifiers_getElem? (pre : List LuceneField)
    (hpf : ∀ f ∈ pre, '(' ∉ f.name) :
    ∀ i, (addDupIdentifiers pre)[i]?
        = (pre[i]?).map (fun f =>
            if 1 < (preNames pre).count f.name then rnAt f (rankAt pre i f) else f) := by
  intro i
  have hmemns : ∀ nm ∈ preNames pre, '(' ∉ nm := by
    intro nm hm
    rcases List.mem_map.mp hm with ⟨f, hf, rfl⟩
    exact hpf f hf
  have h := foldl_rename_spec pre (dedupFirst (preNames pre)) [] pre
    (dedupFirst_nodup (preNames pre).length _ (Nat.le_refl _))
    (fun nm hm => hmemns nm ((mem_dedupFirst (preNames pre).length _ (Nat.le_refl _) nm).mp hm))
    (fun nm _ => by simp)
    (fun j => by
      unfold curAt
      rcases hj : pre[j]? with _ | f
      · rfl
      · simp)
    i
  have haddeq : addDupIdentifiers pre
      = (dedupFirst (preNames pre)).foldl
          (fun fs n => if 1 < (preNames pre).count n then renameGroup fs n 1 else fs) pre := rfl
  rw [haddeq, h]
  unfold curAt
  rcases hj : pre[i]? with _ | f
  · rfl
  · simp only [Option.map_some']
    congr 1
    by_cases hcnt : 1 < (preNames pre).count f.name
    · have hmem : f.name ∈ preNames pre := by
        obtain ⟨hlt, hget⟩ := List.getElem?_eq_some.mp hj
        exact List.mem_map.mpr ⟨f, hget ▸ List.getElem_mem hlt, rfl⟩
      rw [if_pos ⟨by
        simp only [List.nil_append]
        exact (mem_dedupFirst (preNames pre).length _ (Nat.le_refl _) f.name).mpr hmem,
        hcnt⟩, if_pos hcnt]
    · rw [if_neg (fun hc => hcnt hc.2), if_neg hcnt]

theorem append_lparen_inj : ∀ (a b u v : List Char), '(' ∉ a → '(' ∉ b →
    a ++ '(' :: u = b ++ '(' :: v → a = b ∧ u = v := by
  intro a
  induction a with
  | nil =>
    intro b u v _ hb h
    match b, h with
    | [], h =>
      simp at h
      simp [h]
    | c :: b', h =>
      injection h with h₁ h₂
      exact absurd (h₁ ▸ List.mem_cons_self c b') (h₁ ▸ hb)
  | cons c a' ih =>
    intro b u v ha hb h
    match b, h with
    | [], h =>
      injection h with h₁ h₂
      exact absurd (h₁ ▸ List.mem_cons_self c a') (fun hm => ha (by simp [h₁]))
    | c' :: b', h =>
      injection h with h₁ h₂
      obtain ⟨hab, huv⟩ := ih b' u v (fun hm => ha (by simp [hm])) (fun hm => hb (by simp [hm])) h₂
      exact ⟨by rw [h₁, hab], huv⟩

theorem append_singleton_inj {u v : List Char} {x y : Char}
    (h : u ++ [x] = v ++ [y]) : u = v ∧ x = y := by
  have hr := congrArg List.reverse h
  simp only [List.reverse_append, List.reverse_cons, List.reverse_nil, List.nil_append,
    List.singleton_append] at hr
  injection hr with h₁ h₂
  exact ⟨by rw [← List.reverse_inj]; simpa using h₂, h₁⟩

theorem count_take_pos (ns : List (List Char)) (i : Nat) (v : List Char)
    (h : ns[i]? = some v) : 1 ≤ (ns.take (i + 1)).count v := by
  rw [count_take_succ, if_pos h]
  omega

theorem count_take_lt (ns : List (List Char)) {i j : Nat} (hij : i < j) (v : List Char)
    (hj : ns[j]? = some v) :
    (ns.take (i + 1)).count v < (ns.take (j + 1)).count v := by
  rw [count_take_succ ns v j, if_pos hj]
  have hle : (ns.take (i + 1)).count v ≤ (ns.take j).count v :=
    (List.take_sublist_take_left ns (by omega)).count_le v
  omega

theorem addDupIdentifiers_length (pre : List LuceneField) :
    (addDupIdentifiers pre).length = pre.length := by
  have haux : ∀ (todo : List (List Char)) (cur : List LuceneField),
      (todo.foldl
        (fun fs n => if 1 < (preNames pre).count n then renameGroup fs n 1 else fs)
        cur).length = cur.length := by
    intro todo
    induction todo with
    | nil => intro cur; rfl
    | cons d todo' ih =>
      intro cur
      simp only [List.foldl_cons]
      rw [ih]
      split
      · exact renameGroup_length d cur 1
      · rfl
  exact haux (dedupFirst (preNames pre)) pre

/-- Names of the rename result are pairwise distinct (for paren-free
original names). -/
theorem addDupIdentifiers_names_nodup (pre : List LuceneField)
    (hpf : ∀ f ∈ pre, '(' ∉ f.name) :
    ((addDupIdentifiers pre).map (fun f => f.name)).Nodup := by
  rw [List.nodup_iff_getElem?_ne_getElem?]
  intro i j hij hjlen
  have hjpre : j < pre.length := by
    rw [List.length_map, addDupIdentifiers_length] at hjlen
    exact hjlen
  have hipre : i < pre.length := lt_trans hij hjpre
  obtain ⟨fi, hfi⟩ : ∃ f, pre[i]? = some f :=
    ⟨pre.get ⟨i, hipre⟩, List.getElem?_eq_getElem hipre⟩
  obtain ⟨fj, hfj⟩ : ∃ f, pre[j]? = some f :=
    ⟨pre.get ⟨j, hjpre⟩, List.getElem?_eq_getElem hjpre⟩
  have hfi_mem : fi ∈ pre := by
    obtain ⟨hlt, hget⟩ := List.getElem?_eq_some.mp hfi
    exact hget ▸ List.getElem_mem hlt
  have hfj_mem : fj ∈ pre := by
    obtain ⟨hlt, hget⟩ := List.getElem?_eq_some.mp hfj
    exact hget ▸ List.getElem_mem hlt
  have hpfi : '(' ∉ fi.name := hpf fi hfi_mem
  have hpfj : '(' ∉ fj.name := hpf fj hfj_mem
  have hnsi : (preNames pre)[i]? = some fi.name := by
    simp [preNames, List.getElem?_map, hfi]
  have hnsj : (preNames pre)[j]? = some fj.name := by
    simp [preNames, List.getElem?_map, hfj]
  rw [List.getElem?_map, List.getElem?_map, addDupIdentifiers_getElem? pre hpf i,
    addDupIdentifiers_getElem? pre hpf j, hfi, hfj]
  simp only [Option.map_some', Option.map_map, Function.comp_apply]
  intro hcontra
  have h : ((if 1 < (preNames pre).count fi.name then rnAt fi (rankAt pre i fi) else fi)).name
      = ((if 1 < (preNames pre).count fj.name then rnAt fj (rankAt pre j fj) else fj)).name := by
    injection hcontra
  by_cases hci : 1 < (preNames pre).count fi.name
    <;> by_cases hcj : 1 < (preNames pre).count fj.name
  · -- both renamed
    rw [if_pos hci, if_pos hcj] at h
    have h' : fi.name ++ '(' :: (natDigits (rankAt pre i fi) ++ [')'])
        = fj.name ++ '(' :: (natDigits (rankAt pre j fj) ++ [')']) := h
    obtain ⟨hnm, hsuf⟩ := append_lparen_inj _ _ _ _ hpfi hpfj h'
    obtain ⟨hdig, _⟩ := append_singleton_inj hsuf
    have hrank_eq : rankAt pre i fi = rankAt pre j fj := natDigits_inj hdig
    have hlt : rankAt pre i fi < rankAt pre j fj := by
      unfold rankAt
      rw [hnm]
      exact count_take_lt (preNames pre) hij fj.name (hnm ▸ hnsj)
    omega
  · -- i renamed, j untouched
    rw [if_pos hci, if_neg hcj] at h
    exact absurd h (rnAt_name_ne hpfj fi _)
  · -- i untouched, j renamed
    rw [if_neg hci, if_pos hcj] at h
    exact absurd h.symm (rnAt_name_ne hpfi fj _)
  · -- both untouched: the shared name would have count ≥ 2
    rw [if_neg hci, if_neg hcj] at h
    have h1 : 1 ≤ ((preNames pre).take (i + 1)).count fi.name :=
      count_take_pos (preNames pre) i fi.name hnsi
    have h2 : ((preNames pre).take (i + 1)).count fi.name
        < ((preNames pre).take (j + 1)).count fi.name :=
      count_take_lt (preNames pre) hij fi.name (h ▸ hnsj)
    have h3 : ((preNames pre).take (j + 1)).count fi.name
        ≤ (preNames pre).count fi.name :=
      (List.take_sublist (j + 1) (preNames pre)).count_le fi.name
    omega

/-! ## Parenthesis-freedom of names (towards C4)

The lexer cannot put `(` inside a word token, the parser takes every
`SearchField` name from a word token, and the extractor takes every field
name from a `SearchField` name, the full-text sentinel or the empty string;
hence all extracted field names are free of `(` and the renaming
characterization above applies to `parsing`. -/

def wordsOk (toks : List Tok) : Prop := ∀ v p, Tok.word v p ∈ toks → '(' ∉ v

theorem wordsOk_nil : wordsOk [] := by
  intro v p hmem
  simp at hmem

theorem wordsOk_tail {t : Tok} {ts : List Tok} (h : wordsOk (t :: ts)) : wordsOk ts :=
  fun v p hmem => h v p (List.mem_cons_of_mem t hmem)

theorem wordsOk_cons_of {tok : Tok} (h : ∀ v p, tok = Tok.word v p → '(' ∉ v)
    {ts : List Tok} (hts : wordsOk ts) : wordsOk (tok :: ts) := by
  intro v p hmem
  rcases List.mem_cons.mp hmem with hm | hm
  · exact h v p hm.symm
  · exact hts v p hm

theorem isWordChar_ne_lparen {c : Char} (h : isWordChar c = true) : c ≠ '(' := by
  intro hc
  rw [hc] at h
  exact absurd h (by decide)

theorem lexGo_wordsOk : ∀ (fuel : Nat) (cs : List Char) (pos : Nat) (toks : List Tok),
    lexGo fuel cs pos = .ok toks → wordsOk toks := by
  intro fuel
  induction fuel with
  | zero =>
    intro cs pos toks h
    exact absurd h (by simp [lexGo])
  | succ n ih =>
    intro cs pos toks h
    match cs with
    | [] =>
      simp only [lexGo] at h
      injection h with h'
      subst h'
      exact wordsOk_nil
    | c :: rest =>
      simp only [lexGo] at h
      split at h
      · exact ih rest (pos + 1) toks h
      split at h
      · cases hrec : lexGo n rest (pos + 1) with
        | error e => rw [hrec] at h; exact Except.noConfusion h
        | ok ts =>
          rw [hrec] at h
          injection h with h'
          subst h'
          exact wordsOk_cons_of (fun v p heq => by simp at heq) (ih rest (pos + 1) ts hrec)
      split at h
      · cases hrec : lexGo n rest (pos + 1) with
        | error e => rw [hrec] at h; exact Except.noConfusion h
        | ok ts =>
          rw [hrec] at h
          injection h with h'
          subst h'
          exact wordsOk_cons_of (fun v p heq => by simp at heq) (ih rest (pos + 1) ts hrec)
      split at h
      · cases hrec : lexGo n rest (pos + 1) with
        | error e => rw [hrec] at h; exact Except.noConfusion h
        | ok ts =>
          rw [hrec] at h
          injection h with h'
          subst h'
          exact wordsOk_cons_of (fun v p heq => by simp at heq) (ih rest (pos + 1) ts hrec)
      split at h
      · cases hrec : lexGo n rest (pos + 1) with
        | error e => rw [hrec] at h; exact Except.noConfusion h
        | ok ts =>
          rw [hrec] at h
          injection h with h'
          subst h'
          exact wordsOk_cons_of (fun v p heq => by simp at heq) (ih rest (pos + 1) ts hrec)
      split at h
      · cases hrec : lexGo n rest (pos + 1) with
        | error e => rw [hrec] at h; exact Except.noConfusion h
        | ok ts =>
          rw [hrec] at h
          injection h with h'
          subst h'
          exact wordsOk_cons_of (fun v p heq => by simp at heq) (ih rest (pos + 1) ts hrec)
      split at h
      · split at h
        · cases hrec : lexGo n (rest.drop ((rest.takeWhile (fun d => ¬ d = '"')).length + 1))
              (pos + (rest.takeWhile (fun d => ¬ d = '"')).length + 2) with
          | error e => rw [hrec] at h; exact Except.noConfusion h
          | ok ts =>
            rw [hrec] at h
            injection h with h'
            subst h'
            exact wordsOk_cons_of (fun v p heq => by simp at heq) (ih _ _ ts hrec)
        · exact Except.noConfusion h
      split at h
      · rename_i hwc
        cases hrec : lexGo n (rest.drop (rest.takeWhile isWordChar).length)
            (pos + 1 + (rest.takeWhile isWordChar).length) with
        | error e => rw [hrec] at h; exact Except.noConfusion h
        | ok ts =>
          rw [hrec] at h
          injection h with h'
          subst h'
          refine wordsOk_cons_of ?_ (ih _ _ ts hrec)
          intro v p heq
          injection heq with hv hp
          rw [← hv]
          intro hmem
          rcases List.mem_cons.mp hmem with hm | hm
          · exact isWordChar_ne_lparen hwc hm.symm
          · exact isWordChar_ne_lparen (List.mem_takeWhile_imp hm) rfl
      · exact Except.noConfusion h

theorem lex_wordsOk {cs : List Char} {toks : List Tok} (h : lex cs = .ok toks) :
    wordsOk toks :=
  lexGo_wordsOk (cs.length + 1) cs 0 toks h

mutual

def astNamesOk : AST → Prop
  | .word _ _ => True
  | .phrase _ _ => True
  | .searchField _ n e => '(' ∉ n ∧ astNamesOk e
  | .fieldGroup _ e => astNamesOk e
  | .group _ cs => astListNamesOk cs
  | .range _ _ _ _ _ => True
  | .andOperation _ ops => astListNamesOk ops
  | .orOperation _ ops => astListNamesOk ops
  | .unknownOperation _ ops => astListNamesOk ops
  | .notOp _ a => astNamesOk a
  | .plusOp _ a => astNamesOk a
  | .prohibit _ a => astNamesOk a

def astListNamesOk : List AST → Prop
  | [] => True
  | a :: rest => astNamesOk a ∧ astListNamesOk rest

end

theorem astListNamesOk_append (l₁ l₂ : List AST) (h₁ : astListNamesOk l₁)
    (h₂ : astListNamesOk l₂) : astListNamesOk (l₁ ++ l₂) := by
  induction l₁ with
  | nil => simpa using h₂
  | cons a l ih =>
    simp only [astListNamesOk] at h₁
    simp only [List.cons_append, astListNamesOk]
    exact ⟨h₁.1, ih h₁.2⟩

theorem parseRange_names (bpos : Nat) (toks : List Tok) (a : AST) (rest : List Tok)
    (hw : wordsOk toks) (h : parseRange bpos toks = .ok (a, rest)) :
    astNamesOk a ∧ wordsOk rest := by
  unfold parseRange at h
  repeat' split at h
  all_goals
    first
    | exact Except.noConfusion h
    | · injection h with h'
        injection h' with ha hrest
        subst ha hrest
        exact ⟨by simp [astNamesOk],
          wordsOk_tail (wordsOk_tail (wordsOk_tail (wordsOk_tail hw)))⟩

theorem except_bind_ok {ε α β : Type} (a : α) (f : α → Except ε β) :
    ((Except.ok a : Except ε α) >>= f) = f a := rfl

/-- Paren-freedom through the parser: if every word token is free of `(`,
every `SearchField` name of the resulting AST is too (together with the
remaining-token side condition needed for the induction). -/
theorem parse_names_ok : ∀ n : Nat,
    (∀ toks a rest, wordsOk toks → parseOrL n toks = .ok (a, rest) →
      astNamesOk a ∧ wordsOk rest)
    ∧ (∀ acc toks ops rest, wordsOk toks → astListNamesOk acc →
        parseOrTail n acc toks = .ok (ops, rest) → astListNamesOk ops ∧ wordsOk rest)
    ∧ (∀ toks a rest, wordsOk toks → parseAndL n toks = .ok (a, rest) →
      astNamesOk a ∧ wordsOk rest)
    ∧ (∀ acc toks ops rest, wordsOk toks → astListNamesOk acc →
        parseAndTail n acc toks = .ok (ops, rest) → astListNamesOk ops ∧ wordsOk rest)
    ∧ (∀ toks a rest, wordsOk toks → parseImplicitL n toks = .ok (a, rest) →
      astNamesOk a ∧ wordsOk rest)
    ∧ (∀ acc toks ops rest, wordsOk toks → astListNamesOk acc →
        parseImplicitTail n acc toks = .ok (ops, rest) → astListNamesOk ops ∧ wordsOk rest)
    ∧ (∀ toks a rest, wordsOk toks → parseUnary n toks = .ok (a, rest) →
      astNamesOk a ∧ wordsOk rest)
    ∧ (∀ toks a rest, wordsOk toks → parseField n toks = .ok (a, rest) →
      astNamesOk a ∧ wordsOk rest)
    ∧ (∀ toks a rest, wordsOk toks → parseFieldRhs n toks = .ok (a, rest) →
      astNamesOk a ∧ wordsOk rest)
    ∧ (∀ toks a rest, wordsOk toks → parseAtom n toks = .ok (a, rest) →
      astNamesOk a ∧ wordsOk rest) := by
  intro n
  induction n with
  | zero =>
    refine ⟨?_, ?_, ?_, ?_, ?_, ?_, ?_, ?_, ?_, ?_⟩ <;>
      first
      | exact fun toks a rest _ h => Except.noConfusion h
      | exact fun acc toks ops rest _ _ h => Except.noConfusion h
  | succ k ih =>
    obtain ⟨ihOr, ihOrT, ihAnd, ihAndT, ihImp, ihImpT, ihUn, ihF, ihFR, ihAt⟩ := ih
    refine ⟨?_, ?_, ?_, ?_, ?_, ?_, ?_, ?_, ?_, ?_⟩
    · -- parseOrL
      intro toks a rest hw h
      simp only [parseOrL] at h
      cases h₁ : parseAndL k toks with
      | error e => rw [h₁] at h; exact Except.noConfusion h
      | ok pr =>
        obtain ⟨a₁, r₁⟩ := pr
        rw [h₁] at h
        simp only [except_bind_ok] at h
        obtain ⟨hA, hwr₁⟩ := ihAnd toks a₁ r₁ hw h₁
        cases h₂ : parseOrTail k [a₁] r₁ with
        | error e => rw [h₂] at h; exact Except.noConfusion h
        | ok pr₂ =>
          obtain ⟨ops, r₂⟩ := pr₂
          rw [h₂] at h
          simp only [except_bind_ok] at h
          obtain ⟨hOps, hwr₂⟩ := ihOrT [a₁] r₁ ops r₂ hwr₁
            (by simp only [astListNamesOk]; exact ⟨hA, trivial⟩) h₂
          match ops, hOps, h with
          | [x], hOps, h =>
            injection h with h'
            injection h' with ha hr
            subst ha hr
            simp only [astListNamesOk] at hOps
            exact ⟨hOps.1, hwr₂⟩
          | [], hOps, h =>
            injection h with h'
            injection h' with ha hr
            subst ha hr
            exact ⟨by simpa [astNamesOk] using hOps, hwr₂⟩
          | x :: y :: zs, hOps, h =>
            injection h with h'
            injection h' with ha hr
            subst ha hr
            exact ⟨by simpa [astNamesOk] using hOps, hwr₂⟩
    · -- parseOrTail
      intro acc toks ops rest hw hacc h
      simp only [parseOrTail] at h
      split at h
      · split at h
        · rename_i v p rest₁ hOR
          cases h₁ : parseAndL k rest₁ with
          | error e => rw [h₁] at h; exact Except.noConfusion h
          | ok pr =>
            obtain ⟨b, r'⟩ := pr
            rw [h₁] at h
            simp only [except_bind_ok] at h
            obtain ⟨hB, hwr'⟩ := ihAnd rest₁ b r' (wordsOk_tail hw) h₁
            exact ihOrT (acc ++ [b]) r' ops rest hwr'
              (astListNamesOk_append acc [b] hacc
                (by simp only [astListNamesOk]; exact ⟨hB, trivial⟩)) h
        · injection h with h'
          injection h' with ha hr
          subst ha hr
          exact ⟨hacc, hw⟩
      · injection h with h'
        injection h' with ha hr
        subst ha hr
        exact ⟨hacc, hw⟩
    · -- parseAndL
      intro toks a rest hw h
      simp only [parseAndL] at h
      cases h₁ : parseImplicitL k toks with
      | error e => rw [h₁] at h; exact Except.noConfusion h
      | ok pr =>
        obtain ⟨a₁, r₁⟩ := pr
        rw [h₁] at h
        simp only [except_bind_ok] at h
        obtain ⟨hA, hwr₁⟩ := ihImp toks a₁ r₁ hw h₁
        cases h₂ : parseAndTail k [a₁] r₁ with
        | error e => rw [h₂] at h; exact Except.noConfusion h
        | ok pr₂ =>
          obtain ⟨ops, r₂⟩ := pr₂
          rw [h₂] at h
          simp only [except_bind_ok] at h
          obtain ⟨hOps, hwr₂⟩ := ihAndT [a₁] r₁ ops r₂ hwr₁
            (by simp only [astListNamesOk]; exact ⟨hA, trivial⟩) h₂
          match ops, hOps, h with
          | [x], hOps, h =>
            injection h with h'
            injection h' with ha hr
            subst ha hr
            simp only [astListNamesOk] at hOps
            exact ⟨hOps.1, hwr₂⟩
          | [], hOps, h =>
            injection h with h'
            injection h' with ha hr
            subst ha hr
            exact ⟨by simpa [astNamesOk] using hOps, hwr₂⟩
          | x :: y :: zs, hOps, h =>
            injection h with h'
            injection h' with ha hr
            subst ha hr
            exact ⟨by simpa [astNamesOk] using hOps, hwr₂⟩
    · -- parseAndTail
      intro acc toks ops rest hw hacc h
      simp only [parseAndTail] at h
      split at h
      · split at h
        · rename_i v p rest₁ hAND
          cases h₁ : parseImplicitL k rest₁ with
          | error e => rw [h₁] at h; exact Except.noConfusion h
          | ok pr =>
            obtain ⟨b, r'⟩ := pr
            rw [h₁] at h
            simp only [except_bind_ok] at h
            obtain ⟨hB, hwr'⟩ := ihImp rest₁ b r' (wordsOk_tail hw) h₁
            exact ihAndT (acc ++ [b]) r' ops rest hwr'
              (astListNamesOk_append acc [b] hacc
                (by simp only [astListNamesOk]; exact ⟨hB, trivial⟩)) h
        · injection h with h'
          injection h' with ha hr
          subst ha hr
          exact ⟨hacc, hw⟩
      · injection h with h'
        injection h' with ha hr
        subst ha hr
        exact ⟨hacc, hw⟩
    · -- parseImplicitL
      intro toks a rest hw h
      simp only [parseImplicitL] at h
      cases h₁ : parseUnary k toks with
      | error e => rw [h₁] at h; exact Except.noConfusion h
      | ok pr =>
        obtain ⟨a₁, r₁⟩ := pr
        rw [h₁] at h
        simp only [except_bind_ok] at h
        obtain ⟨hA, hwr₁⟩ := ihUn toks a₁ r₁ hw h₁
        cases h₂ : parseImplicitTail k [a₁] r₁ with
        | error e => rw [h₂] at h; exact Except.noConfusion h
        | ok pr₂ =>
          obtain ⟨ops, r₂⟩ := pr₂
          rw [h₂] at h
          simp only [except_bind_ok] at h
          obtain ⟨hOps, hwr₂⟩ := ihImpT [a₁] r₁ ops r₂ hwr₁
            (by simp only [astListNamesOk]; exact ⟨hA, trivial⟩) h₂
          match ops, hOps, h with
          | [x], hOps, h =>
            injection h with h'
            injection h' with ha hr
            subst ha hr
            simp only [astListNamesOk] at hOps
            exact ⟨hOps.1, hwr₂⟩
          | [], hOps, h =>
            injection h with h'
            injection h' with ha hr
            subst ha hr
            exact ⟨by simpa [astNamesOk] using hOps, hwr₂⟩
          | x :: y :: zs, hOps, h =>
            injection h with h'
            injection h' with ha hr
            subst ha hr
            exact ⟨by simpa [astNamesOk] using hOps, hwr₂⟩
    · -- parseImplicitTail
      intro acc toks ops rest hw hacc h
      simp only [parseImplicitTail] at h
      split at h
      · rename_i t tail
        split at h
        · cases h₁ : parseUnary k (t :: tail) with
          | error e =>
            rw [h₁] at h
            exact Except.noConfusion h
          | ok pr =>
            obtain ⟨b, r'⟩ := pr
            rw [h₁] at h
            simp only [except_bind_ok] at h
            obtain ⟨hB, hwr'⟩ := ihUn (t :: tail) b r' hw h₁
            exact ihImpT (acc ++ [b]) r' ops rest hwr'
              (astListNamesOk_append acc [b] hacc
                (by simp only [astListNamesOk]; exact ⟨hB, trivial⟩)) h
        · injection h with h'
          injection h' with ha hr
          subst ha hr
          exact ⟨hacc, hw⟩
      · injection h with h'
        injection h' with ha hr
        subst ha hr
        exact ⟨hacc, hw⟩
    · -- parseUnary
      intro toks a rest hw h
      simp only [parseUnary] at h
      split at h
      · split at h
        · rename_i v p rest₁ hNOT
          cases h₁ : parseUnary k rest₁ with
          | error e => rw [h₁] at h; exact Except.noConfusion h
          | ok pr =>
            obtain ⟨b, r'⟩ := pr
            rw [h₁] at h
            simp only [except_bind_ok] at h
            obtain ⟨hB, hwr'⟩ := ihUn rest₁ b r' (wordsOk_tail hw) h₁
            injection h with h'
            injection h' with ha hr
            subst ha hr
            exact ⟨by simpa [astNamesOk] using hB, hwr'⟩
        · exact ihF _ a rest hw h
      · exact ihF _ a rest hw h
    · -- parseField
      intro toks a rest hw h
      simp only [parseField] at h
      split at h
      · rename_i v p cp rest₁
        cases h₁ : parseFieldRhs k rest₁ with
        | error e => rw [h₁] at h; exact Except.noConfusion h
        | ok pr =>
          obtain ⟨e, r'⟩ := pr
          rw [h₁] at h
          simp only [except_bind_ok] at h
          obtain ⟨hE, hwr'⟩ := ihFR rest₁ e r' (wordsOk_tail (wordsOk_tail hw)) h₁
          injection h with h'
          injection h' with ha hr
          subst ha hr
          refine ⟨?_, hwr'⟩
          simp only [astNamesOk]
          exact ⟨hw v p (by simp), hE⟩
      · exact ihAt _ a rest hw h
    · -- parseFieldRhs
      intro toks a rest hw h
      simp only [parseFieldRhs] at h
      split at h
      · rename_i p rest₁
        cases h₁ : parseOrL k rest₁ with
        | error e => rw [h₁] at h; exact Except.noConfusion h
        | ok pr =>
          obtain ⟨e, r'⟩ := pr
          rw [h₁] at h
          simp only [except_bind_ok] at h
          obtain ⟨hE, hwr'⟩ := ihOr rest₁ e r' (wordsOk_tail hw) h₁
          split at h
          · injection h with h'
            injection h' with ha hr
            subst ha hr
            exact ⟨by simpa [astNamesOk] using hE, wordsOk_tail hwr'⟩
          · exact Except.noConfusion h
          · exact Except.noConfusion h
      · exact ihF _ a rest hw h
    · -- parseAtom
      intro toks a rest hw h
      simp only [parseAtom] at h
      split at h
      · split at h
        · exact Except.noConfusion h
        · rename_i v p rest₁ hkw
          injection h with h'
          injection h' with ha hr
          subst ha hr
          exact ⟨trivial, wordsOk_tail hw⟩
      · rename_i v p rest₁
        injection h with h'
        injection h' with ha hr
        subst ha hr
        exact ⟨trivial, wordsOk_tail hw⟩
      · rename_i p rest₁
        cases h₁ : parseOrL k rest₁ with
        | error e => rw [h₁] at h; exact Except.noConfusion h
        | ok pr =>
          obtain ⟨e, r'⟩ := pr
          rw [h₁] at h
          simp only [except_bind_ok] at h
          obtain ⟨hE, hwr'⟩ := ihOr rest₁ e r' (wordsOk_tail hw) h₁
          split at h
          · injection h with h'
            injection h' with ha hr
            subst ha hr
            refine ⟨?_, wordsOk_tail hwr'⟩
            simp only [astNamesOk, astListNamesOk]
            exact ⟨hE, trivial⟩
          · exact Except.noConfusion h
          · exact Except.noConfusion h
      · rename_i p rest₁
        exact parseRange_names p rest₁ a rest (wordsOk_tail hw) h
      · exact Except.noConfusion h
      · exact Except.noConfusion h


/-- The field names an extraction result may carry: paren-free in every
position. -/
def resNamesOk : FieldsRes → Prop
  | .single f => '(' ∉ f.name
  | .many fs => ∀ f ∈ fs, '(' ∉ f.name

theorem parsing_word_name (p : Nat) (v : List Char) :
    (LuceneParser.parsing_word p v).name = FULL_TEXT_SEARCH_FIELD_NAME := by
  unfold LuceneParser.parsing_word
  split <;> rfl

/-- Paren-freedom through the extractor: on an AST whose `SearchField` names
are paren-free, every extracted field name is paren-free — it is the node's
own name, the full-text sentinel `*`, or the empty string. -/
theorem get_method_names_ok : ∀ n : Nat,
    (∀ t r, astNamesOk t → LuceneParser.get_method n t = .ok r → resNamesOk r)
    ∧ (∀ ts fs, astListNamesOk ts → LuceneParser.get_method_list n ts = .ok fs →
        ∀ f ∈ fs, '(' ∉ f.name) := by
  intro n
  induction n with
  | zero =>
    refine ⟨fun t r _ h => by cases t <;> exact Except.noConfusion h,
            fun ts fs _ h => ?_⟩
    match ts, h with
    | [], h =>
      injection h with h'
      subst h'
      intro f hf
      simp at hf
    | t :: ts', h => cases t <;> exact Except.noConfusion h
  | succ k ih =>
    obtain ⟨ihT, ihL⟩ := ih
    have treeStep : ∀ t r, astNamesOk t →
        LuceneParser.get_method (k + 1) t = .ok r → resNamesOk r := by
      intro t r hok h
      cases t with
      | word p v =>
        simp only [LuceneParser.get_method] at h
        injection h with h'
        subst h'
        simp only [resNamesOk, parsing_word_name]
        decide
      | phrase p v =>
        simp only [LuceneParser.get_method] at h
        injection h with h'
        subst h'
        simp only [resNamesOk]
        decide
      | searchField p name expr =>
        simp only [LuceneParser.get_method] at h
        cases h₁ : LuceneParser.get_method k expr with
        | error e => rw [h₁] at h; exact Except.noConfusion h
        | ok nr =>
          rw [h₁] at h
          simp only [except_bind_ok] at h
          match nr, h with
          | .single nf, h =>
            injection h with h'
            subst h'
            simp only [resNamesOk]
            simp only [astNamesOk] at hok
            exact hok.1
          | .many _, h => exact Except.noConfusion h
      | fieldGroup p expr =>
        simp only [LuceneParser.get_method] at h
        injection h with h'
        subst h'
        simp only [resNamesOk]
        simp
      | group p cs =>
        simp only [LuceneParser.get_method] at h
        cases h₁ : LuceneParser.get_method_list k cs with
        | error e => rw [h₁] at h; exact Except.noConfusion h
        | ok fs =>
          rw [h₁] at h
          simp only [except_bind_ok] at h
          injection h with h'
          subst h'
          simp only [resNamesOk]
          simp only [astNamesOk] at hok
          exact ihL cs fs hok h₁
      | range p lo hi il ir =>
        simp only [LuceneParser.get_method] at h
        injection h with h'
        subst h'
        simp only [resNamesOk]
        simp
      | andOperation p ops =>
        simp only [LuceneParser.get_method] at h
        cases h₁ : LuceneParser.get_method_list k ops with
        | error e => rw [h₁] at h; exact Except.noConfusion h
        | ok fs =>
          rw [h₁] at h
          simp only [except_bind_ok] at h
          injection h with h'
          subst h'
          simp only [resNamesOk]
          simp only [astNamesOk] at hok
          exact ihL ops fs hok h₁
      | orOperation p ops =>
        simp only [LuceneParser.get_method] at h
        cases h₁ : LuceneParser.get_method_list k ops with
        | error e => rw [h₁] at h; exact Except.noConfusion h
        | ok fs =>
          rw [h₁] at h
          simp only [except_bind_ok] at h
          injection h with h'
          subst h'
          simp only [resNamesOk]
          simp only [astNamesOk] at hok
          exact ihL ops fs hok h₁
      | unknownOperation p ops =>
        simp only [LuceneParser.get_method] at h
        exact Except.noConfusion h
      | notOp p a =>
        simp only [LuceneParser.get_method] at h
        cases h₁ : LuceneParser.get_method k a with
        | error e => rw [h₁] at h; exact Except.noConfusion h
        | ok fr =>
          rw [h₁] at h
          simp only [except_bind_ok] at h
          match fr, h with
          | .single f₀, h =>
            injection h with h'
            subst h'
            simp only [resNamesOk]
            decide
          | .many _, h => exact Except.noConfusion h
      | plusOp p a =>
        simp only [LuceneParser.get_method] at h
        cases h₁ : LuceneParser.get_method k a with
        | error e => rw [h₁] at h; exact Except.noConfusion h
        | ok fr =>
          rw [h₁] at h
          simp only [except_bind_ok] at h
          match fr, h with
          | .single f₀, h =>
            injection h with h'
            subst h'
            simp only [resNamesOk]
            decide
          | .many _, h => exact Except.noConfusion h
      | prohibit p a =>
        simp only [LuceneParser.get_method] at h
        cases h₁ : LuceneParser.get_method k a with
        | error e => rw [h₁] at h; exact Except.noConfusion h
        | ok fr =>
          rw [h₁] at h
          simp only [except_bind_ok] at h
          match fr, h with
          | .single f₀, h =>
            injection h with h'
            subst h'
            simp only [resNamesOk]
            decide
          | .many _, h => exact Except.noConfusion h
    have listStep : ∀ ts fs, astListNamesOk ts →
        LuceneParser.get_method_list (k + 1) ts = .ok fs →
        ∀ f ∈ fs, '(' ∉ f.name := by
      intro ts
      induction ts with
      | nil =>
        intro fs _ h
        injection h with h'
        subst h'
        intro f hf
        simp at hf
      | cons t ts' ihts =>
        intro fs hok h
        simp only [LuceneParser.get_method_list] at h
        cases h₁ : LuceneParser.get_method (k + 1) t with
        | error e => rw [h₁] at h; exact Except.noConfusion h
        | ok r =>
          rw [h₁] at h
          simp only [except_bind_ok] at h
          cases h₂ : LuceneParser.get_method_list (k + 1) ts' with
          | error e => rw [h₂] at h; exact Except.noConfusion h
          | ok fs' =>
            rw [h₂] at h
            simp only [except_bind_ok] at h
            simp only [astListNamesOk] at hok
            have hr : resNamesOk r := treeStep t r hok.1 h₁
            have hfs' := ihts fs' hok.2 h₂
            match r, hr, h with
            | .single f₀, hr, h =>
              injection h with h'
              subst h'
              intro f hf
              rcases List.mem_cons.mp hf with hm | hm
              · subst hm
                exact hr
              · exact hfs' f hm
            | .many gs, hr, h =>
              injection h with h'
              subst h'
              intro f hf
              rcases List.mem_append.mp hf with hm | hm
              · exact hr f hm
              · exact hfs' f hm
    exact ⟨treeStep, listStep⟩

/-- A tree returned by the (modelled) luqum parse has paren-free
`SearchField` names: the lexer never puts `(` inside a word token. -/
theorem specParse_names_ok {kw : List Char} {t : AST} (h : specParse kw = .ok t) :
    astNamesOk t := by
  unfold specParse at h
  cases hlex : lex kw with
  | error e => rw [hlex] at h; exact Except.noConfusion h
  | ok toks =>
    rw [hlex] at h
    simp only [except_bind_ok] at h
    cases hpar : parseOrL (10 * (toks.length + 1) + 10) toks with
    | error e => rw [hpar] at h; exact Except.noConfusion h
    | ok pr =>
      obtain ⟨a, rest⟩ := pr
      rw [hpar] at h
      simp only [except_bind_ok] at h
      have hnm := ((parse_names_ok (10 * (toks.length + 1) + 10)).1) toks a rest
        (lex_wordsOk hlex) hpar
      split at h
      · injection h with h'
        subst h'
        exact hnm.1
      · exact Except.noConfusion h

/-- **C4.** For every query accepted by the parser whose extraction walker
returns a field list, `parsing` returns exactly the duplicate-renamed list:
entry `i` keeps its name when that name occurs once among the extracted
names, and is renamed to `name(rank)` — its 1-based rank in traversal order
among the entries with the same name — when the name occurs more than once;
and the names of the returned list are pairwise distinct. -/
theorem parsing_renames_duplicates (kw : List Char) (t : AST)
    (pre out : List LuceneField)
    (hp : specParse kw = .ok t)
    (he : LuceneParser.get_method (astSize t + 1) t = .ok (.many pre))
    (ho : LuceneParser.parsing kw = .ok out) :
    out = addDupIdentifiers pre
    ∧ out.length = pre.length
    ∧ (∀ i : Nat, out[i]?
        = (pre[i]?).map (fun f =>
            if 1 < (preNames pre).count f.name then rnAt f (rankAt pre i f) else f))
    ∧ (out.map (fun f => f.name)).Nodup := by
  have hpf : ∀ f ∈ pre, '(' ∉ f.name :=
    ((get_method_names_ok (astSize t + 1)).1) t (.many pre) (specParse_names_ok hp) he
  have hout : out = addDupIdentifiers pre := by
    unfold LuceneParser.parsing at ho
    rw [hp] at ho
    simp only [except_bind_ok] at ho
    rw [he] at ho
    simp only [except_bind_ok] at ho
    injection ho with h'
    exact h'.symm
  subst hout
  exact ⟨rfl, addDupIdentifiers_length pre,
         addDupIdentifiers_getElem? pre hpf,
         addDupIdentifiers_names_nodup pre hpf⟩

/-! Concrete instance for the duplicate-renaming theorem: the query
`a: 1 AND a: 2 AND b: 3` has the name `a` twice and `b` once. -/

def astC4w : AST :=
  .andOperation 0
    [.searchField 0 (("a").data) (.word 3 (("1").data)),
     .searchField 9 (("a").data) (.word 12 (("2").data)),
     .searchField 18 (("b").data) (.word 21 (("3").data))]

def preC4w : List LuceneField :=
  [{ pos := 0, name := ("a").data, type := ("Word").data,
     operator := ("~=").data, value := ("1").data },
   { pos := 9, name := ("a").data, type := ("Word").data,
     operator := ("~=").data, value := ("2").data },
   { pos := 18, name := ("b").data, type := ("Word").data,
     operator := ("~=").data, value := ("3").data }]

def outC4w : List LuceneField :=
  [{ pos := 0, name := ("a(1)").data, type := ("Word").data,
     operator := ("~=").data, value := ("1").data },
   { pos := 9, name := ("a(2)").data, type := ("Word").data,
     operator := ("~=").data, value := ("2").data },
   { pos := 18, name := ("b").data, type := ("Word").data,
     operator := ("~=").data, value := ("3").data }]

/-- Witness for the duplicate-renaming theorem at `a: 1 AND a: 2 AND b: 3`:
the hypotheses hold by computation, and the conclusion instantiates to
the renamed list `a(1), a(2), b` with pairwise-distinct names. -/
theorem parsing_renames_duplicates_witness :
    (specParse (("a: 1 AND a: 2 AND b: 3").data) = .ok astC4w)
    ∧ (LuceneParser.get_method (astSize astC4w + 1) astC4w = .ok (.many preC4w))
    ∧ (LuceneParser.parsing (("a: 1 AND a: 2 AND b: 3").data) = .ok outC4w)
    ∧ outC4w = addDupIdentifiers preC4w
    ∧ ((outC4w.map (fun f => f.name)).Nodup) :=
  ⟨rfl, rfl, rfl,
   (parsing_renames_duplicates (("a: 1 AND a: 2 AND b: 3").data) astC4w preC4w outC4w
     rfl rfl rfl).1,
   (parsing_renames_duplicates (("a: 1 AND a: 2 AND b: 3").data) astC4w preC4w outC4w
     rfl rfl rfl).2.2.2⟩
